import Mathlib

/-!
Verification development for the buildbot scheduler/caching core.

The first part embeds `master/buildbot/util/lru.py` (the synchronous
`LRUCache` and the asynchronous `AsyncLRUCache`) as pure Lean functions over
an explicit state record.  Python dictionaries are modelled as association
lists (insertion order preserved, unique keys maintained by the operations,
exactly as a dict behaves), the `deque` recency queue as a `List` whose head
is the left end, and the `defaultdict(lambda: 0)` reference-count table as a
total function `Nat -> Int` defaulting to `0`.  Keys and values are both
`Nat`.  The `miss_fn` resolver (stored on the Python object at construction
time) is passed explicitly to the operations that consult it.

The second part models the scheduler base class.  Its implementation file
(`master/buildbot/schedulers/base.py`) is not part of the sources provided,
only its unit tests, so those definitions are modelled from the spec and are
marked as such in their doc comments.
-/

/-! ## Association lists standing in for Python dicts -/

def alLookup {α β : Type} [DecidableEq α] : List (α × β) → α → Option β
  | [], _ => none
  | (k', v') :: rest, k => if k' = k then some v' else alLookup rest k

def alUpdate {α β : Type} [DecidableEq α] : List (α × β) → α → β → List (α × β)
  | [], k, v => [(k, v)]
  | (k', v') :: rest, k, v =>
      if k' = k then (k, v) :: rest else (k', v') :: alUpdate rest k v

def alErase {α β : Type} [DecidableEq α] : List (α × β) → α → List (α × β)
  | [], _ => []
  | (k', v') :: rest, k => if k' = k then rest else (k', v') :: alErase rest k

def alKeys {α β : Type} (l : List (α × β)) : List α := l.map Prod.fst

def alContains {α β : Type} [DecidableEq α] (l : List (α × β)) (k : α) : Bool :=
  (alLookup l k).isSome

/-! ## The synchronous LRU cache (`LRUCache` in `lru.py`) -/

/-- The mutable attributes of a `LRUCache` instance. -/
structure LRUState where
  max_size : Nat
  max_queue : Nat
  queue : List Nat
  cache : List (Nat × Nat)
  weakrefs : List (Nat × Nat)
  hits : Nat
  misses : Nat
  refhits : Nat
  refcount : Nat → Int

/-- `LRUCache.__init__`: empty tables, zero counters,
`max_queue = max_size * QUEUE_SIZE_FACTOR` with `QUEUE_SIZE_FACTOR = 10`. -/
def initState (max_size : Nat) : LRUState :=
  { max_size := max_size
    max_queue := max_size * 10
    queue := []
    cache := []
    weakrefs := []
    hits := 0
    misses := 0
    refhits := 0
    refcount := fun _ => 0 }

/-- The queue-compaction loop in `_ref_key`: pop entries from the right end
down to the sentinel, prepending each key not seen yet to the left.  `acc`
holds the keys already kept (most recent first). -/
def compactGo : List Nat → List Nat → List Nat
  | [], acc => acc
  | k :: rest, acc =>
      if acc.contains k then compactGo rest acc else compactGo rest (k :: acc)

/-- Compacting the queue keeps one occurrence of each key, preserving the
relative order of most recent accesses. -/
def compactQueue (q : List Nat) : List Nat := compactGo q.reverse []

/-- `LRUCache._ref_key`: append the key to the recency queue and bump its
reference count; when the queue outgrows `max_queue`, clear the counts and
rewrite the queue with each key exactly once. -/
def refKey (s : LRUState) (key : Nat) : LRUState :=
  let q := s.queue ++ [key]
  if q.length > s.max_queue then
    let cq := compactQueue q
    { s with queue := cq, refcount := fun k => if cq.contains k then 1 else 0 }
  else
    { s with queue := q
             refcount := fun k => if k = key then s.refcount k + 1 else s.refcount k }

/-- The inner loop of `LRUCache._purge`: pop keys from the left of the queue,
decrementing each popped key's reference count, until a pop drives a count to
zero; that key has no remaining queue references and is the eviction victim.
`none` corresponds to the `IndexError` Python would raise on an empty deque
(unreachable from consistent states). -/
def popUntilZero : List Nat → (Nat → Int) → Option (Nat × List Nat × (Nat → Int))
  | [], _ => none
  | k :: rest, rc =>
      let c := rc k - 1
      let rc2 := fun j => if j = k then c else rc j
      if c = 0 then some (k, rest, rc2) else popUntilZero rest rc2

/-- The outer `while len(cache) > max_size` loop of `_purge`, run with
explicit fuel; each round consumes at least one queue entry, so
`queue.length + 1` fuel always suffices.  `del refcount[k]` is modelled as
resetting the count to the defaultdict default `0`. -/
def purgeGo : Nat → LRUState → LRUState
  | 0, s => s
  | fuel + 1, s =>
      if s.cache.length ≤ s.max_size then s
      else
        match popUntilZero s.queue s.refcount with
        | none => s
        | some (k, q', rc') =>
            purgeGo fuel
              { s with queue := q'
                       cache := alErase s.cache k
                       refcount := fun j => if j = k then 0 else rc' j }

/-- `LRUCache._purge`. -/
def purge (s : LRUState) : LRUState := purgeGo (s.queue.length + 1) s

/-- `LRUCache._get_hit`: primary-cache hit bumps `hits`; otherwise a
secondary-table (weakref) hit bumps `refhits` and re-inserts the value into
the primary cache.  Neither path purges.  `none` is the `KeyError`. -/
def getHit (s : LRUState) (key : Nat) : Option (Nat × LRUState) :=
  match alLookup s.cache key with
  | some v => some (v, refKey { s with hits := s.hits + 1 } key)
  | none =>
      match alLookup s.weakrefs key with
      | some v =>
          some (v, refKey { s with refhits := s.refhits + 1
                                   cache := alUpdate s.cache key v } key)
      | none => none

/-- `LRUCache.get` with the resolver `f` standing for `self.miss_fn`: on a
miss, bump `misses`, call the resolver, and cache a non-`None` result in both
tables before purging. -/
def LRUState.get (f : Nat → Option Nat) (s : LRUState) (key : Nat) :
    Option Nat × LRUState :=
  match getHit s key with
  | some (v, s') => (some v, s')
  | none =>
      let s1 := { s with misses := s.misses + 1 }
      match f key with
      | some v =>
          let s2 := { s1 with cache := alUpdate s1.cache key v
                              weakrefs := alUpdate s1.weakrefs key v }
          (some v, purge (refKey s2 key))
      | none => (none, s1)

/-- `LRUCache.put`: overwrite an existing primary entry (and refresh the
weakref), else overwrite an existing weakref entry, else do nothing. -/
def LRUState.put (s : LRUState) (key value : Nat) : LRUState :=
  if alContains s.cache key then
    { s with cache := alUpdate s.cache key value
             weakrefs := alUpdate s.weakrefs key value }
  else if alContains s.weakrefs key then
    { s with weakrefs := alUpdate s.weakrefs key value }
  else s

/-- `LRUCache.set_max_size`: no-op when unchanged, otherwise update both
limits and re-purge. -/
def LRUState.set_max_size (s : LRUState) (m : Nat) : LRUState :=
  if s.max_size = m then s
  else purge { s with max_size := m, max_queue := m * 10 }

/-- A public operation on the synchronous cache. -/
inductive SyncOp where
  | get : Nat → SyncOp
  | put : Nat → Nat → SyncOp
  | setMax : Nat → SyncOp

def applyOp (f : Nat → Option Nat) (s : LRUState) : SyncOp → LRUState
  | SyncOp.get k => (s.get f k).2
  | SyncOp.put k v => s.put k v
  | SyncOp.setMax m => s.set_max_size m

def runOps (f : Nat → Option Nat) : List SyncOp → LRUState → LRUState
  | [], s => s
  | op :: rest, s => runOps f rest (applyOp f s op)

/-- The internal consistency predicate checked by `LRUCache.inv`: the queue
and the primary cache hold the same key set, the reference counts are the
occurrence counts in the queue, and (dict well-formedness) cache keys are
unique. -/
def LRUInv (s : LRUState) : Prop :=
  (∀ k, k ∈ s.queue ↔ k ∈ alKeys s.cache) ∧
  (∀ k, s.refcount k = (s.queue.count k : Int)) ∧
  (alKeys s.cache).Nodup

/-! ## Association-list lemmas -/

theorem alLookup_update_self {α β : Type} [DecidableEq α] (l : List (α × β)) (k : α) (v : β) :
    alLookup (alUpdate l k v) k = some v := by
  induction l with
  | nil => simp [alUpdate, alLookup]
  | cons p rest ih =>
      obtain ⟨k', v'⟩ := p
      by_cases h : k' = k
      · subst h; simp [alUpdate, alLookup]
      · simp [alUpdate, alLookup, h, ih]

theorem alLookup_update_ne {α β : Type} [DecidableEq α] (l : List (α × β)) (k j : α) (v : β)
    (h : k ≠ j) : alLookup (alUpdate l k v) j = alLookup l j := by
  induction l with
  | nil => simp [alUpdate, alLookup, h]
  | cons p rest ih =>
      obtain ⟨k', v'⟩ := p
      by_cases hk : k' = k
      · subst hk; simp [alUpdate, alLookup, h]
      · simp [alUpdate, alLookup, hk, ih]

theorem alLookup_isSome_iff {α β : Type} [DecidableEq α] (l : List (α × β)) (k : α) :
    (alLookup l k).isSome = true ↔ k ∈ alKeys l := by
  induction l with
  | nil => simp [alLookup, alKeys]
  | cons p rest ih =>
      obtain ⟨k', v'⟩ := p
      by_cases h : k' = k
      · subst h; simp [alLookup, alKeys]
      · simp [alLookup, alKeys, h, ih, Ne.symm h]

theorem alLookup_eq_none_iff {α β : Type} [DecidableEq α] (l : List (α × β)) (k : α) :
    alLookup l k = none ↔ k ∉ alKeys l := by
  rw [← alLookup_isSome_iff (l := l) (k := k)]
  cases alLookup l k <;> simp

theorem alContains_iff {α β : Type} [DecidableEq α] (l : List (α × β)) (k : α) :
    alContains l k = true ↔ k ∈ alKeys l := by
  unfold alContains; exact alLookup_isSome_iff l k

theorem alKeys_update_mem {α β : Type} [DecidableEq α] (l : List (α × β)) (k : α) (v : β)
    (h : k ∈ alKeys l) : alKeys (alUpdate l k v) = alKeys l := by
  simp only [alKeys] at h ⊢
  induction l with
  | nil => simp at h
  | cons p rest ih =>
      obtain ⟨k', v'⟩ := p
      by_cases hk : k' = k
      · subst hk; simp [alUpdate]
      · simp only [List.map_cons, List.mem_cons] at h
        rcases h with h | h
        · exact absurd h.symm hk
        · simp [alUpdate, hk, ih h]

theorem alKeys_update_not_mem {α β : Type} [DecidableEq α] (l : List (α × β)) (k : α) (v : β)
    (h : k ∉ alKeys l) : alKeys (alUpdate l k v) = alKeys l ++ [k] := by
  simp only [alKeys] at h ⊢
  induction l with
  | nil => simp [alUpdate]
  | cons p rest ih =>
      obtain ⟨k', v'⟩ := p
      simp only [List.map_cons, List.mem_cons] at h
      push_neg at h
      simp [alUpdate, Ne.symm h.1, ih h.2]

theorem alUpdate_length_mem {α β : Type} [DecidableEq α] (l : List (α × β)) (k : α) (v : β)
    (h : k ∈ alKeys l) : (alUpdate l k v).length = l.length := by
  have h1 := congrArg List.length (alKeys_update_mem l k v h)
  simpa [alKeys] using h1

theorem alUpdate_length_not_mem {α β : Type} [DecidableEq α] (l : List (α × β)) (k : α) (v : β)
    (h : k ∉ alKeys l) : (alUpdate l k v).length = l.length + 1 := by
  have h1 := congrArg List.length (alKeys_update_not_mem l k v h)
  simpa [alKeys] using h1

theorem alKeys_update_nodup {α β : Type} [DecidableEq α] (l : List (α × β)) (k : α) (v : β)
    (h : (alKeys l).Nodup) : (alKeys (alUpdate l k v)).Nodup := by
  by_cases hm : k ∈ alKeys l
  · rw [alKeys_update_mem l k v hm]; exact h
  · rw [alKeys_update_not_mem l k v hm]
    exact List.Nodup.append h (List.nodup_singleton k) (by simpa using hm)

theorem alLookup_erase_ne {α β : Type} [DecidableEq α] (l : List (α × β)) (k j : α)
    (h : j ≠ k) : alLookup (alErase l k) j = alLookup l j := by
  induction l with
  | nil => simp [alErase]
  | cons p rest ih =>
      obtain ⟨k', v'⟩ := p
      by_cases hk : k' = k
      · subst hk; simp [alErase, alLookup, Ne.symm h]
      · simp [alErase, alLookup, hk, ih]

theorem alErase_not_mem {α β : Type} [DecidableEq α] (l : List (α × β)) (k : α)
    (h : k ∉ alKeys l) : alErase l k = l := by
  simp only [alKeys] at h
  induction l with
  | nil => simp [alErase]
  | cons p rest ih =>
      obtain ⟨k', v'⟩ := p
      simp only [List.map_cons, List.mem_cons] at h
      push_neg at h
      simp [alErase, Ne.symm h.1, ih h.2]

theorem alErase_length_mem {α β : Type} [DecidableEq α] (l : List (α × β)) (k : α)
    (h : k ∈ alKeys l) : (alErase l k).length + 1 = l.length := by
  simp only [alKeys] at h
  induction l with
  | nil => simp at h
  | cons p rest ih =>
      obtain ⟨k', v'⟩ := p
      by_cases hk : k' = k
      · subst hk; simp [alErase]
      · simp only [List.map_cons, List.mem_cons] at h
        rcases h with h | h
        · exact absurd h.symm hk
        · simp [alErase, hk, ← ih h]

theorem alKeys_erase_iff {α β : Type} [DecidableEq α] (l : List (α × β)) (k : α)
    (hnd : (alKeys l).Nodup) :
    ∀ j, j ∈ alKeys (alErase l k) ↔ (j ∈ alKeys l ∧ j ≠ k) := by
  simp only [alKeys] at hnd ⊢
  induction l with
  | nil => simp [alErase]
  | cons p rest ih =>
      obtain ⟨k', v'⟩ := p
      simp only [List.map_cons, List.nodup_cons] at hnd
      intro j
      by_cases hk : k' = k
      · subst hk
        simp only [alErase, if_pos rfl, List.map_cons, List.mem_cons]
        constructor
        · intro hj
          refine ⟨Or.inr hj, ?_⟩
          rintro rfl; exact hnd.1 hj
        · rintro ⟨hj | hj, hne⟩
          · exact absurd hj hne
          · exact hj
      · simp only [alErase, if_neg hk, List.map_cons, List.mem_cons]
        constructor
        · intro hj
          rcases hj with hj | hj
          · refine ⟨Or.inl hj, ?_⟩
            rintro rfl
            exact hk hj.symm
          · obtain ⟨hj1, hj2⟩ := (ih hnd.2 j).mp hj
            exact ⟨Or.inr hj1, hj2⟩
        · rintro ⟨hj | hj, hne⟩
          · exact Or.inl hj
          · exact Or.inr ((ih hnd.2 j).mpr ⟨hj, hne⟩)

theorem alKeys_erase_nodup {α β : Type} [DecidableEq α] (l : List (α × β)) (k : α)
    (hnd : (alKeys l).Nodup) : (alKeys (alErase l k)).Nodup := by
  simp only [alKeys] at hnd ⊢
  induction l with
  | nil => simp [alErase]
  | cons p rest ih =>
      obtain ⟨k', v'⟩ := p
      simp only [List.map_cons, List.nodup_cons] at hnd
      by_cases hk : k' = k
      · subst hk; simpa [alErase] using hnd.2
      · simp only [alErase, if_neg hk, List.map_cons, List.nodup_cons]
        refine ⟨fun hmem => ?_, ih hnd.2⟩
        have := (alKeys_erase_iff rest k hnd.2 k')
        simp only [alKeys] at this
        exact hnd.1 (this.mp hmem).1

theorem alLookup_erase_self {α β : Type} [DecidableEq α] (l : List (α × β)) (k : α)
    (hnd : (alKeys l).Nodup) : alLookup (alErase l k) k = none := by
  rw [alLookup_eq_none_iff]
  intro hmem
  exact ((alKeys_erase_iff l k hnd k).mp hmem).2 rfl

/-! ## Frame lemmas for the internal cache operations -/

theorem refKey_frame (s : LRUState) (key : Nat) :
    (refKey s key).cache = s.cache ∧ (refKey s key).weakrefs = s.weakrefs ∧
    (refKey s key).hits = s.hits ∧ (refKey s key).misses = s.misses ∧
    (refKey s key).refhits = s.refhits ∧ (refKey s key).max_size = s.max_size ∧
    (refKey s key).max_queue = s.max_queue := by
  unfold refKey
  dsimp only
  split <;> exact ⟨rfl, rfl, rfl, rfl, rfl, rfl, rfl⟩

theorem purgeGo_frame (fuel : Nat) :
    ∀ s : LRUState,
      (purgeGo fuel s).weakrefs = s.weakrefs ∧ (purgeGo fuel s).hits = s.hits ∧
      (purgeGo fuel s).misses = s.misses ∧ (purgeGo fuel s).refhits = s.refhits ∧
      (purgeGo fuel s).max_size = s.max_size ∧
      (purgeGo fuel s).max_queue = s.max_queue := by
  induction fuel with
  | zero => intro s; simp [purgeGo]
  | succ n ih =>
      intro s
      rw [purgeGo]
      by_cases h : s.cache.length ≤ s.max_size
      · simp [h]
      · simp only [if_neg h]
        cases hp : popUntilZero s.queue s.refcount with
        | none => simp
        | some t =>
            obtain ⟨k, q', rc'⟩ := t
            simpa using ih _

theorem purge_frame (s : LRUState) :
    (purge s).weakrefs = s.weakrefs ∧ (purge s).hits = s.hits ∧
    (purge s).misses = s.misses ∧ (purge s).refhits = s.refhits ∧
    (purge s).max_size = s.max_size ∧ (purge s).max_queue = s.max_queue :=
  purgeGo_frame _ s

/-! ## Case lemmas for `_get_hit` -/

theorem getHit_cache_hit (s : LRUState) (key v : Nat)
    (h : alLookup s.cache key = some v) :
    getHit s key = some (v, refKey { s with hits := s.hits + 1 } key) := by
  unfold getHit; rw [h]

theorem getHit_ref_hit (s : LRUState) (key v : Nat)
    (h1 : alLookup s.cache key = none) (h2 : alLookup s.weakrefs key = some v) :
    getHit s key =
      some (v, refKey { s with refhits := s.refhits + 1
                               cache := alUpdate s.cache key v } key) := by
  unfold getHit; rw [h1, h2]

theorem getHit_miss (s : LRUState) (key : Nat)
    (h1 : alLookup s.cache key = none) (h2 : alLookup s.weakrefs key = none) :
    getHit s key = none := by
  unfold getHit; rw [h1, h2]

/-- Claim C9: for a key absent from both the primary cache and the secondary
weakref table, `put` leaves the whole cache state unchanged; `put` only ever
overwrites keys already present in one of the two tables. -/
theorem claim_C9 (s : LRUState) (key value : Nat)
    (hc : key ∉ alKeys s.cache) (hw : key ∉ alKeys s.weakrefs) :
    s.put key value = s := by
  unfold LRUState.put
  simp [alContains, (alLookup_eq_none_iff s.cache key).mpr hc,
        (alLookup_eq_none_iff s.weakrefs key).mpr hw]

/-- Witness for C9: a concrete `put` of a brand-new key on a concrete state
is a no-op. -/
theorem claim_C9_witness :
    5 ∉ alKeys (initState 3).cache ∧ 5 ∉ alKeys (initState 3).weakrefs ∧
    (initState 3).put 5 7 = initState 3 :=
  ⟨by decide, by decide, claim_C9 (initState 3) 5 7 (by decide) (by decide)⟩

/-- Every synchronous `get` bumps exactly one of the three counters. -/
theorem get_counter_step (f : Nat → Option Nat) (s : LRUState) (key : Nat) :
    (s.get f key).2.hits + (s.get f key).2.refhits + (s.get f key).2.misses
      = s.hits + s.refhits + s.misses + 1 := by
  unfold LRUState.get
  cases hc : alLookup s.cache key with
  | some v =>
      rw [getHit_cache_hit s key v hc]
      have h := refKey_frame { s with hits := s.hits + 1 } key
      simp only [h.2.2.1, h.2.2.2.1, h.2.2.2.2.1]
      omega
  | none =>
      cases hw : alLookup s.weakrefs key with
      | some v =>
          rw [getHit_ref_hit s key v hc hw]
          have h := refKey_frame
            { s with refhits := s.refhits + 1, cache := alUpdate s.cache key v } key
          simp only [h.2.2.1, h.2.2.2.1, h.2.2.2.2.1]
          omega
      | none =>
          rw [getHit_miss s key hc hw]
          cases hf : f key with
          | some v =>
              have hpf := purge_frame (refKey
                { s with misses := s.misses + 1
                         cache := alUpdate s.cache key v
                         weakrefs := alUpdate s.weakrefs key v } key)
              have hrf := refKey_frame
                { s with misses := s.misses + 1
                         cache := alUpdate s.cache key v
                         weakrefs := alUpdate s.weakrefs key v } key
              simp only [hpf.2.1, hpf.2.2.1, hpf.2.2.2.1,
                         hrf.2.2.1, hrf.2.2.2.1, hrf.2.2.2.2.1]
              omega
          | none => simp; omega

/-! ## Compaction preserves the key set and yields a duplicate-free queue -/

theorem compactGo_mem (l : List Nat) :
    ∀ acc j, j ∈ compactGo l acc ↔ (j ∈ l ∨ j ∈ acc) := by
  induction l with
  | nil => intro acc j; simp [compactGo]
  | cons k rest ih =>
      intro acc j
      by_cases h : acc.contains k
      · have hk : k ∈ acc := by simpa using h
        rw [compactGo, if_pos h, ih]
        constructor
        · rintro (hj | hj)
          · exact Or.inl (List.mem_cons_of_mem _ hj)
          · exact Or.inr hj
        · rintro (hj | hj)
          · rcases List.mem_cons.mp hj with rfl | hj2
            · exact Or.inr hk
            · exact Or.inl hj2
          · exact Or.inr hj
      · rw [compactGo, if_neg h, ih]
        simp only [List.mem_cons]
        tauto

theorem compactGo_nodup (l : List Nat) :
    ∀ acc, acc.Nodup → (compactGo l acc).Nodup := by
  induction l with
  | nil => intro acc h; simpa [compactGo]
  | cons k rest ih =>
      intro acc h
      by_cases hc : acc.contains k
      · rw [compactGo, if_pos hc]; exact ih acc h
      · rw [compactGo, if_neg hc]
        refine ih (k :: acc) (List.nodup_cons.mpr ⟨?_, h⟩)
        simpa using hc

theorem compactQueue_mem (q : List Nat) : ∀ j, j ∈ compactQueue q ↔ j ∈ q := by
  intro j
  unfold compactQueue
  rw [compactGo_mem]
  simp

theorem compactQueue_nodup (q : List Nat) : (compactQueue q).Nodup :=
  compactGo_nodup q.reverse [] List.nodup_nil

/-- `_ref_key` keeps the reference counts equal to the queue occurrence
counts, and the new queue's key set is the old one plus the touched key. -/
theorem refKey_inv (s : LRUState) (key : Nat)
    (hcount : ∀ k, s.refcount k = (s.queue.count k : Int)) :
    (∀ k, (refKey s key).refcount k = ((refKey s key).queue.count k : Int)) ∧
    (∀ j, (j ∈ (refKey s key).queue ↔ (j ∈ s.queue ∨ j = key))) := by
  unfold refKey
  dsimp only
  split
  · constructor
    · intro k
      by_cases hm : (compactQueue (s.queue ++ [key])).contains k
      · have hmem : k ∈ compactQueue (s.queue ++ [key]) := by simpa using hm
        have hnd := compactQueue_nodup (s.queue ++ [key])
        simp [hm, hmem, List.count_eq_one_of_mem hnd hmem]
      · have hmem : k ∉ compactQueue (s.queue ++ [key]) := by simpa using hm
        simp [hm, hmem, List.count_eq_zero.mpr hmem]
    · intro j
      dsimp only
      rw [compactQueue_mem]
      simp
  · constructor
    · intro k
      by_cases hk : k = key
      · subst hk
        simp only [if_pos rfl, hcount, List.count_append]
        push_cast
        simp [List.count_cons]
      · simp only [if_neg hk, hcount, List.count_append]
        push_cast
        simp [List.count_cons, hk]
    · intro j
      simp

/-- The purge inner loop always finds an eviction victim when the counts
track the queue: it pops some `k`, leaves a strictly shorter queue whose
counts are again tracked, and `k` no longer occurs in the remaining queue. -/
theorem popUntilZero_spec :
    ∀ (q : List Nat) (rc : Nat → Int), q ≠ [] → (∀ j, rc j = (q.count j : Int)) →
      ∃ k q' rc', popUntilZero q rc = some (k, q', rc') ∧
        (∀ j, rc' j = (q'.count j : Int)) ∧
        q'.length < q.length ∧ k ∈ q ∧
        (∀ j, j ∈ q' ↔ (j ∈ q ∧ j ≠ k)) := by
  intro q
  induction q with
  | nil => intro rc h _; exact absurd rfl h
  | cons k0 rest ih =>
      intro rc _ hrc
      have hc : rc k0 - 1 = (rest.count k0 : Int) := by
        rw [hrc k0, List.count_cons_self]
        push_cast
        ring
      by_cases h0 : rest.count k0 = 0
      · have hcz : rc k0 - 1 = 0 := by rw [hc, h0]; simp
        have hk0 : k0 ∉ rest := List.count_eq_zero.mp h0
        refine ⟨k0, rest, fun j => if j = k0 then rc k0 - 1 else rc j, ?_, ?_, ?_, ?_, ?_⟩
        · simp only [popUntilZero]
          rw [if_pos hcz]
        · intro j
          by_cases hj : j = k0
          · subst hj; simpa using hc
          · have := hrc j
            rw [List.count_cons_of_ne hj] at this
            simpa [hj] using this
        · simp
        · exact List.mem_cons_self k0 rest
        · intro j
          constructor
          · intro hj
            refine ⟨List.mem_cons_of_mem _ hj, ?_⟩
            rintro rfl; exact hk0 hj
          · rintro ⟨hj, hne⟩
            rcases List.mem_cons.mp hj with rfl | hj2
            · exact absurd rfl hne
            · exact hj2
      · have hcnz : ¬(rc k0 - 1 = 0) := by rw [hc]; simpa using h0
        have hk0rest : k0 ∈ rest := by
          have := Nat.pos_of_ne_zero h0
          exact List.count_pos_iff.mp this
        have hrestne : rest ≠ [] := by
          intro he; rw [he] at hk0rest; simp at hk0rest
        set rc2 := fun j => if j = k0 then rc k0 - 1 else rc j with hrc2
        have hrc2count : ∀ j, rc2 j = (rest.count j : Int) := by
          intro j
          by_cases hj : j = k0
          · subst hj; simp [hrc2, hc]
          · have := hrc j
            rw [List.count_cons_of_ne hj] at this
            simp [hrc2, hj, this]
        obtain ⟨k, q', rc', heq, hcnt, hlen, hkmem, hmem⟩ := ih rc2 hrestne hrc2count
        refine ⟨k, q', rc', ?_, hcnt, ?_, List.mem_cons_of_mem _ hkmem, ?_⟩
        · simp only [popUntilZero]
          rw [if_neg hcnz, ← hrc2]
          exact heq
        · exact Nat.lt_trans hlen (by simp)
        · intro j
          rw [hmem j]
          constructor
          · rintro ⟨hj, hne⟩
            exact ⟨List.mem_cons_of_mem _ hj, hne⟩
          · rintro ⟨hj, hne⟩
            rcases List.mem_cons.mp hj with rfl | hj2
            · exact ⟨hk0rest, hne⟩
            · exact ⟨hj2, hne⟩

/-- The purge outer loop, given enough fuel and a consistent state, restores
`|cache| ≤ max_size` and preserves consistency. -/
theorem purgeGo_spec :
    ∀ (fuel : Nat) (s : LRUState), LRUInv s → s.queue.length < fuel →
      LRUInv (purgeGo fuel s) ∧ (purgeGo fuel s).cache.length ≤ s.max_size := by
  intro fuel
  induction fuel with
  | zero => intro s _ h; exact absurd h (Nat.not_lt_zero _)
  | succ n ih =>
      intro s hinv hlen
      rw [purgeGo]
      by_cases hsz : s.cache.length ≤ s.max_size
      · rw [if_pos hsz]; exact ⟨hinv, hsz⟩
      · rw [if_neg hsz]
        obtain ⟨hq, hrc, hnd⟩ := hinv
        have hcne : s.cache ≠ [] := by
          intro he; rw [he] at hsz; simp at hsz
        have hqne : s.queue ≠ [] := by
          intro he
          obtain ⟨p, hp⟩ := List.exists_mem_of_ne_nil s.cache hcne
          have hp1 : p.1 ∈ alKeys s.cache := List.mem_map_of_mem _ hp
          have := (hq p.1).mpr hp1
          rw [he] at this
          simp at this
        obtain ⟨k, q', rc', heq, hcnt, hlt, hkq, hmem⟩ :=
          popUntilZero_spec s.queue s.refcount hqne hrc
        rw [heq]
        have hkc : k ∈ alKeys s.cache := (hq k).mp hkq
        have hinv2 : LRUInv { s with queue := q'
                                     cache := alErase s.cache k
                                     refcount := fun j => if j = k then 0 else rc' j } := by
          refine ⟨?_, ?_, alKeys_erase_nodup s.cache k hnd⟩
          · intro j
            dsimp only
            rw [hmem j, alKeys_erase_iff s.cache k hnd j, hq j]
          · intro j
            dsimp only
            by_cases hj : j = k
            · subst hj
              have hnq : j ∉ q' := fun hcq => ((hmem j).mp hcq).2 rfl
              simp [List.count_eq_zero.mpr hnq]
            · simp [hj, hcnt j]
        have hlen2 : q'.length < n := by
          have := Nat.lt_succ_iff.mp hlen
          omega
        have hres := ih _ hinv2 hlen2
        exact ⟨hres.1, hres.2⟩

theorem purge_spec (s : LRUState) (hinv : LRUInv s) :
    LRUInv (purge s) ∧ (purge s).cache.length ≤ s.max_size :=
  purgeGo_spec (s.queue.length + 1) s hinv (Nat.lt_succ_self _)

/-- `_ref_key` re-establishes full consistency whenever the key being
referenced accounts for any difference between queue and cache key sets. -/
theorem refKey_inv_general (s : LRUState) (key : Nat)
    (hq : ∀ j, (j ∈ s.queue ∨ j = key) ↔ j ∈ alKeys s.cache)
    (hrc : ∀ j, s.refcount j = (s.queue.count j : Int))
    (hnd : (alKeys s.cache).Nodup) :
    LRUInv (refKey s key) := by
  obtain ⟨hcnt, hqm⟩ := refKey_inv s key hrc
  have hframe := refKey_frame s key
  refine ⟨?_, hcnt, ?_⟩
  · intro j
    rw [hqm j, hframe.1]
    exact hq j
  · rw [hframe.1]
    exact hnd

/-- Consistency is preserved by `get`, for every resolver. -/
theorem get_inv (f : Nat → Option Nat) (s : LRUState) (key : Nat)
    (hinv : LRUInv s) : LRUInv (s.get f key).2 := by
  obtain ⟨hq, hrc, hnd⟩ := hinv
  unfold LRUState.get
  cases hc : alLookup s.cache key with
  | some v =>
      rw [getHit_cache_hit s key v hc]
      have hmem : key ∈ alKeys s.cache := by
        rw [← alLookup_isSome_iff]
        simp [hc]
      refine refKey_inv_general _ key ?_ hrc hnd
      intro j
      constructor
      · rintro (hj | rfl)
        · exact (hq j).mp hj
        · exact hmem
      · intro hj
        exact Or.inl ((hq j).mpr hj)
  | none =>
      have hnmem : key ∉ alKeys s.cache := (alLookup_eq_none_iff s.cache key).mp hc
      cases hw : alLookup s.weakrefs key with
      | some v =>
          rw [getHit_ref_hit s key v hc hw]
          refine refKey_inv_general _ key ?_ hrc ?_
          · intro j
            dsimp only
            rw [alKeys_update_not_mem s.cache key v hnmem, List.mem_append,
                List.mem_singleton]
            constructor
            · rintro (hj | rfl)
              · exact Or.inl ((hq j).mp hj)
              · exact Or.inr rfl
            · rintro (hj | rfl)
              · exact Or.inl ((hq j).mpr hj)
              · exact Or.inr rfl
          · dsimp only
            rw [alKeys_update_not_mem s.cache key v hnmem]
            exact List.Nodup.append hnd (List.nodup_singleton key) (by simpa using hnmem)
      | none =>
          rw [getHit_miss s key hc hw]
          cases hf : f key with
          | some v =>
              dsimp only
              refine (purge_spec _ ?_).1
              refine refKey_inv_general _ key ?_ hrc ?_
              · intro j
                dsimp only
                rw [alKeys_update_not_mem s.cache key v hnmem, List.mem_append,
                    List.mem_singleton]
                constructor
                · rintro (hj | rfl)
                  · exact Or.inl ((hq j).mp hj)
                  · exact Or.inr rfl
                · rintro (hj | rfl)
                  · exact Or.inl ((hq j).mpr hj)
                  · exact Or.inr rfl
              · dsimp only
                rw [alKeys_update_not_mem s.cache key v hnmem]
                exact List.Nodup.append hnd (List.nodup_singleton key)
                  (by simpa using hnmem)
          | none => exact ⟨hq, hrc, hnd⟩

/-- Consistency is preserved by `put`. -/
theorem put_inv (s : LRUState) (key value : Nat) (hinv : LRUInv s) :
    LRUInv (s.put key value) := by
  obtain ⟨hq, hrc, hnd⟩ := hinv
  unfold LRUState.put
  by_cases hc : alContains s.cache key = true
  · rw [if_pos hc]
    have hmem : key ∈ alKeys s.cache := (alContains_iff s.cache key).mp hc
    refine ⟨?_, hrc, ?_⟩
    · intro j
      dsimp only
      rw [alKeys_update_mem s.cache key value hmem]
      exact hq j
    · dsimp only
      rw [alKeys_update_mem s.cache key value hmem]
      exact hnd
  · rw [if_neg hc]
    by_cases hw : alContains s.weakrefs key = true
    · rw [if_pos hw]
      exact ⟨hq, hrc, hnd⟩
    · rw [if_neg hw]
      exact ⟨hq, hrc, hnd⟩

/-- Consistency is preserved by `set_max_size`. -/
theorem set_max_size_inv (s : LRUState) (m : Nat) (hinv : LRUInv s) :
    LRUInv (s.set_max_size m) := by
  unfold LRUState.set_max_size
  by_cases h : s.max_size = m
  · rw [if_pos h]; exact hinv
  · rw [if_neg h]
    exact (purge_spec { s with max_size := m, max_queue := m * 10 }
      ⟨hinv.1, hinv.2.1, hinv.2.2⟩).1

theorem applyOp_inv (f : Nat → Option Nat) (s : LRUState) (op : SyncOp)
    (hinv : LRUInv s) : LRUInv (applyOp f s op) := by
  cases op with
  | get k => exact get_inv f s k hinv
  | put k v => exact put_inv s k v hinv
  | setMax m => exact set_max_size_inv s m hinv

theorem initState_inv (m : Nat) : LRUInv (initState m) := by
  refine ⟨fun k => ?_, fun k => ?_, ?_⟩ <;> simp [initState, alKeys]

theorem runOps_inv (f : Nat → Option Nat) :
    ∀ (ops : List SyncOp) (s : LRUState), LRUInv s → LRUInv (runOps f ops s) := by
  intro ops
  induction ops with
  | nil => intro s h; exact h
  | cons op rest ih => intro s h; exact ih _ (applyOp_inv f s op h)

/-! ## Size effect of each public operation on the primary cache -/

theorem get_cache_hit_size (f : Nat → Option Nat) (s : LRUState) (key v : Nat)
    (h : alLookup s.cache key = some v) : (s.get f key).2.cache = s.cache := by
  unfold LRUState.get
  rw [getHit_cache_hit s key v h]
  exact (refKey_frame _ _).1

theorem get_ref_hit_size (f : Nat → Option Nat) (s : LRUState) (key v : Nat)
    (h1 : alLookup s.cache key = none) (h2 : alLookup s.weakrefs key = some v) :
    (s.get f key).2.cache.length = s.cache.length + 1 := by
  unfold LRUState.get
  rw [getHit_ref_hit s key v h1 h2]
  rw [(refKey_frame _ _).1]
  exact alUpdate_length_not_mem _ _ _ ((alLookup_eq_none_iff _ _).mp h1)

theorem get_miss_cached_size (f : Nat → Option Nat) (s : LRUState) (key v : Nat)
    (h1 : alLookup s.cache key = none) (h2 : alLookup s.weakrefs key = none)
    (hf : f key = some v) (hinv : LRUInv s) :
    (s.get f key).2.cache.length ≤ s.max_size := by
  obtain ⟨hq, hrc, hnd⟩ := hinv
  have hnmem : key ∉ alKeys s.cache := (alLookup_eq_none_iff s.cache key).mp h1
  unfold LRUState.get
  rw [getHit_miss s key h1 h2]
  dsimp only
  rw [hf]
  have hinv2 : LRUInv (refKey
      { s with misses := s.misses + 1
               cache := alUpdate s.cache key v
               weakrefs := alUpdate s.weakrefs key v } key) := by
    refine refKey_inv_general _ key ?_ hrc ?_
    · intro j
      dsimp only
      rw [alKeys_update_not_mem s.cache key v hnmem, List.mem_append,
          List.mem_singleton]
      constructor
      · rintro (hj | rfl)
        · exact Or.inl ((hq j).mp hj)
        · exact Or.inr rfl
      · rintro (hj | rfl)
        · exact Or.inl ((hq j).mpr hj)
        · exact Or.inr rfl
    · dsimp only
      rw [alKeys_update_not_mem s.cache key v hnmem]
      exact List.Nodup.append hnd (List.nodup_singleton key) (by simpa using hnmem)
  have hb := (purge_spec _ hinv2).2
  rw [(refKey_frame _ _).2.2.2.2.2.1] at hb
  exact hb

theorem get_miss_uncached_size (f : Nat → Option Nat) (s : LRUState) (key : Nat)
    (h1 : alLookup s.cache key = none) (h2 : alLookup s.weakrefs key = none)
    (hf : f key = none) : (s.get f key).2.cache = s.cache := by
  unfold LRUState.get
  rw [getHit_miss s key h1 h2]
  dsimp only
  rw [hf]

theorem put_size (s : LRUState) (key value : Nat) :
    (s.put key value).cache.length = s.cache.length := by
  unfold LRUState.put
  by_cases hc : alContains s.cache key = true
  · rw [if_pos hc]
    exact alUpdate_length_mem _ _ _ ((alContains_iff _ _).mp hc)
  · rw [if_neg hc]
    by_cases hw : alContains s.weakrefs key = true
    · rw [if_pos hw]
    · rw [if_neg hw]

theorem set_max_size_bound (s : LRUState) (m : Nat) (hne : s.max_size ≠ m)
    (hinv : LRUInv s) : (s.set_max_size m).cache.length ≤ m := by
  unfold LRUState.set_max_size
  rw [if_neg hne]
  exact (purge_spec { s with max_size := m, max_queue := m * 10 }
    ⟨hinv.1, hinv.2.1, hinv.2.2⟩).2

/-- Claim C1 (amended): along every sequence of public operations the cache
stays internally consistent; `|cache| ≤ max_size` is re-established by every
caching miss `get` and by every capacity change, and the primary cache is
left unchanged by `put`, by primary-cache hits and by uncached misses — but a
`get` satisfied from the secondary non-owning table inserts the key into the
primary cache *without purging*, growing it by exactly one entry, so the
bound `|cache| ≤ max_size` can be exceeded after a ref-hit. -/
theorem claim_C1 (f : Nat → Option Nat) (m0 : Nat) (ops : List SyncOp) :
    LRUInv (runOps f ops (initState m0)) ∧
    (∀ s : LRUState, LRUInv s →
      (∀ key v, alLookup s.cache key = some v →
          (s.get f key).2.cache = s.cache) ∧
      (∀ key v, alLookup s.cache key = none →
          alLookup s.weakrefs key = some v →
          (s.get f key).2.cache.length = s.cache.length + 1) ∧
      (∀ key v, alLookup s.cache key = none → alLookup s.weakrefs key = none →
          f key = some v → (s.get f key).2.cache.length ≤ s.max_size) ∧
      (∀ key, alLookup s.cache key = none → alLookup s.weakrefs key = none →
          f key = none → (s.get f key).2.cache = s.cache) ∧
      (∀ key value, (s.put key value).cache.length = s.cache.length) ∧
      (∀ m, s.max_size ≠ m → (s.set_max_size m).cache.length ≤ m)) := by
  refine ⟨runOps_inv f ops (initState m0) (initState_inv m0), ?_⟩
  intro s hinv
  exact ⟨fun key v h => get_cache_hit_size f s key v h,
         fun key v h1 h2 => get_ref_hit_size f s key v h1 h2,
         fun key v h1 h2 hf => get_miss_cached_size f s key v h1 h2 hf hinv,
         fun key h1 h2 hf => get_miss_uncached_size f s key h1 h2 hf,
         fun key value => put_size s key value,
         fun m hne => set_max_size_bound s m hne hinv⟩

/-- Counterexample to claim C1 as stated: on a capacity-1 cache, `get 1;
get 2` fills and evicts key 1, and a final ref-hit `get 1` re-inserts it
from the secondary table without purging, so the public `get` returns with
2 keys in a primary cache whose `max_size` is 1. -/
theorem claim_C1_cex :
    (runOps (fun k => some k) [SyncOp.get 1, SyncOp.get 2, SyncOp.get 1]
        (initState 1)).max_size = 1 ∧
    (runOps (fun k => some k) [SyncOp.get 1, SyncOp.get 2, SyncOp.get 1]
        (initState 1)).cache.length = 2 := by
  constructor <;> rfl

/-- Witness for the amended C1: concrete reachable state, concrete miss. -/
theorem claim_C1_witness :
    LRUInv (runOps (fun k => some (k + 1)) [SyncOp.get 1, SyncOp.get 2]
      (initState 1)) ∧
    ((runOps (fun k => some (k + 1)) [SyncOp.get 1, SyncOp.get 2]
        (initState 1)).get (fun k => some (k + 1)) 3).2.cache.length ≤ 1 := by
  have h := claim_C1 (fun k => some (k + 1)) 1 [SyncOp.get 1, SyncOp.get 2]
  refine ⟨h.1, ?_⟩
  have h3 := (h.2 _ h.1).2.2.1 3 4 (by decide) (by decide) rfl
  have hm : (runOps (fun k => some (k + 1)) [SyncOp.get 1, SyncOp.get 2]
      (initState 1)).max_size = 1 := by decide
  rw [hm] at h3
  exact h3

/-! ## Concrete executions: filling a fresh cache with distinct keys -/

/-- A resolver that always returns a value (never the do-not-cache `None`). -/
def someResolver (r : Nat → Nat) : Nat → Option Nat := fun k => some (r k)

/-- The state of a cache of capacity `m` after resolving the distinct keys
`ks` (in order) from fresh, while no eviction and no compaction has occurred:
both tables hold exactly `ks`, the queue lists `ks` in insertion order, and
every `get` so far was a miss. -/
def freshState (m : Nat) (r : Nat → Nat) (ks : List Nat) : LRUState :=
  { max_size := m
    max_queue := m * 10
    queue := ks
    cache := ks.map (fun k => (k, r k))
    weakrefs := ks.map (fun k => (k, r k))
    hits := 0
    misses := ks.length
    refhits := 0
    refcount := fun k => (ks.count k : Int) }

theorem freshState_nil (m : Nat) (r : Nat → Nat) :
    freshState m r [] = initState m := by
  unfold freshState initState
  congr 1

theorem alKeys_map_fresh (r : Nat → Nat) (ks : List Nat) :
    alKeys (ks.map (fun k => (k, r k))) = ks := by
  simp [alKeys, List.map_map]
  exact List.map_id ks

theorem alLookup_map_fresh (r : Nat → Nat) (ks : List Nat) (key : Nat) :
    alLookup (ks.map (fun k => (k, r k))) key
      = if key ∈ ks then some (r key) else none := by
  induction ks with
  | nil => simp [alLookup]
  | cons k0 rest ih =>
      by_cases h : k0 = key
      · subst h; simp [alLookup]
      · simp only [List.map_cons, alLookup, if_neg h, ih, List.mem_cons]
        by_cases hm : key ∈ rest
        · simp [hm]
        · simp [hm, Ne.symm h]

theorem alUpdate_not_mem_append {α β : Type} [DecidableEq α]
    (l : List (α × β)) (k : α) (v : β) (h : k ∉ alKeys l) :
    alUpdate l k v = l ++ [(k, v)] := by
  simp only [alKeys] at h
  induction l with
  | nil => simp [alUpdate]
  | cons p rest ih =>
      obtain ⟨k', v'⟩ := p
      simp only [List.map_cons, List.mem_cons] at h
      push_neg at h
      simp [alUpdate, Ne.symm h.1, ih h.2]

theorem purge_noop (s : LRUState) (h : s.cache.length ≤ s.max_size) :
    purge s = s := by
  unfold purge
  rw [purgeGo, if_pos h]

theorem refKey_no_compact (s : LRUState) (key : Nat)
    (h : ¬((s.queue ++ [key]).length > s.max_queue)) :
    refKey s key = { s with queue := s.queue ++ [key]
                            refcount := fun k => if k = key then s.refcount k + 1
                                                 else s.refcount k } := by
  unfold refKey
  dsimp only
  rw [if_neg h]

theorem runOps_append (f : Nat → Option Nat) :
    ∀ (l1 l2 : List SyncOp) (s : LRUState),
      runOps f (l1 ++ l2) s = runOps f l2 (runOps f l1 s) := by
  intro l1
  induction l1 with
  | nil => intro l2 s; rfl
  | cons op rest ih =>
      intro l2 s
      rw [List.cons_append, runOps, runOps]
      exact ih l2 _

theorem LRUState.extEq : ∀ {a b : LRUState},
    a.max_size = b.max_size → a.max_queue = b.max_queue → a.queue = b.queue →
    a.cache = b.cache → a.weakrefs = b.weakrefs → a.hits = b.hits →
    a.misses = b.misses → a.refhits = b.refhits → a.refcount = b.refcount →
    a = b := by
  intro a b h1 h2 h3 h4 h5 h6 h7 h8 h9
  cases a; cases b
  dsimp only at h1 h2 h3 h4 h5 h6 h7 h8 h9
  subst h1 h2 h3 h4 h5 h6 h7 h8 h9
  rfl

/-- Resolving one more fresh key, while the cache is not yet full and the
queue is short enough not to compact, is a pure append. -/
theorem get_fresh_step (m : Nat) (r : Nat → Nat) (ks : List Nat) (key : Nat)
    (hnew : key ∉ ks) (hlen : ks.length + 1 ≤ m) (hq : ks.length + 1 ≤ m * 10) :
    (freshState m r ks).get (someResolver r) key
      = (some (r key), freshState m r (ks ++ [key])) := by
  have hck : alLookup (freshState m r ks).cache key = none := by
    show alLookup (ks.map fun k => (k, r k)) key = none
    rw [alLookup_map_fresh]
    simp [hnew]
  have hwk : alLookup (freshState m r ks).weakrefs key = none := hck
  have hkeys : key ∉ alKeys (freshState m r ks).cache :=
    (alLookup_eq_none_iff _ _).mp hck
  have hcu : alUpdate (freshState m r ks).cache key (r key)
      = (ks ++ [key]).map (fun k => (k, r k)) := by
    rw [alUpdate_not_mem_append _ _ _ hkeys]
    show ks.map (fun k => (k, r k)) ++ [(key, r key)] = _
    simp
  unfold LRUState.get
  rw [getHit_miss _ _ hck hwk]
  dsimp only [someResolver]
  simp only [Prod.mk.injEq]
  refine ⟨trivial, ?_⟩
  rw [refKey_no_compact]
  · rw [purge_noop]
    · refine LRUState.extEq rfl rfl ?_ ?_ ?_ rfl ?_ rfl ?_
      · show (freshState m r ks).queue ++ [key] = (freshState m r (ks ++ [key])).queue
        rfl
      · show alUpdate (freshState m r ks).cache key (r key)
            = (freshState m r (ks ++ [key])).cache
        rw [hcu]
        exact rfl
      · show alUpdate (freshState m r ks).weakrefs key (r key)
            = (freshState m r (ks ++ [key])).weakrefs
        rw [show (freshState m r ks).weakrefs = (freshState m r ks).cache from rfl, hcu]
        exact rfl
      · show (freshState m r ks).misses + 1 = (freshState m r (ks ++ [key])).misses
        show ks.length + 1 = (ks ++ [key]).length
        simp
      · show (fun k => if k = key then (freshState m r ks).refcount k + 1
              else (freshState m r ks).refcount k)
            = (freshState m r (ks ++ [key])).refcount
        funext j
        show (if j = key then ((ks.count j : Int)) + 1 else (ks.count j : Int))
            = ((ks ++ [key]).count j : Int)
        by_cases hj : j = key
        · subst hj
          simp [List.count_append]
        · simp [List.count_append, hj]
    · show (alUpdate (freshState m r ks).cache key (r key)).length ≤ m
      rw [alUpdate_length_not_mem _ _ _ hkeys]
      have hfl : (freshState m r ks).cache.length = ks.length := by
        show (ks.map fun k => (k, r k)).length = ks.length
        simp
      omega
  · show ¬((freshState m r ks).queue ++ [key]).length > (freshState m r ks).max_queue
    show ¬(ks ++ [key]).length > m * 10
    simp only [List.length_append, List.length_cons, List.length_nil]
    omega

theorem runGets_fresh (m : Nat) (r : Nat → Nat) :
    ∀ (L ks : List Nat), (ks ++ L).Nodup → (ks ++ L).length ≤ m →
      runOps (someResolver r) (L.map SyncOp.get) (freshState m r ks)
        = freshState m r (ks ++ L) := by
  intro L
  induction L with
  | nil => intro ks _ _; simp [runOps]
  | cons key rest ih =>
      intro ks hnd hlen
      have hnew : key ∉ ks := by
        rcases List.nodup_append.mp hnd with ⟨_, _, hdisj⟩
        intro hk
        exact hdisj hk (List.mem_cons_self key rest)
      have h1 : ks.length + 1 ≤ m := by
        rw [List.length_append, List.length_cons] at hlen
        omega
      have h2 : ks.length + 1 ≤ m * 10 := by omega
      show runOps _ (SyncOp.get key :: rest.map SyncOp.get) _ = _
      rw [runOps]
      have happ : applyOp (someResolver r) (freshState m r ks) (SyncOp.get key)
          = freshState m r (ks ++ [key]) := by
        show ((freshState m r ks).get (someResolver r) key).2 = _
        rw [get_fresh_step m r ks key hnew h1 h2]
      rw [happ,
          ih (ks ++ [key])
            (by rw [List.append_assoc, List.singleton_append]; exact hnd)
            (by rw [List.append_assoc, List.singleton_append]; exact hlen),
          List.append_assoc, List.singleton_append]

/-- The state written by the miss branch of `get` just before it references
the key and purges. -/
def missInsert (s : LRUState) (key v : Nat) : LRUState :=
  { s with misses := s.misses + 1
           cache := alUpdate s.cache key v
           weakrefs := alUpdate s.weakrefs key v }

theorem get_miss_eq (f : Nat → Option Nat) (s : LRUState) (key v : Nat)
    (h1 : alLookup s.cache key = none) (h2 : alLookup s.weakrefs key = none)
    (hf : f key = some v) :
    s.get f key = (some v, purge (refKey (missInsert s key v) key)) := by
  unfold LRUState.get
  rw [getHit_miss _ _ h1 h2]
  dsimp only
  rw [hf]
  exact rfl

theorem get_ref_hit_eq (f : Nat → Option Nat) (s : LRUState) (key v : Nat)
    (h1 : alLookup s.cache key = none) (h2 : alLookup s.weakrefs key = some v) :
    s.get f key = (some v, refKey { s with refhits := s.refhits + 1
                                           cache := alUpdate s.cache key v } key) := by
  unfold LRUState.get
  rw [getHit_ref_hit s key v h1 h2]

/-- When the head of the queue is the unique reference to its key and one
eviction restores the bound, `_purge` evicts exactly that key. -/
theorem purge_evict_one (s : LRUState) (k0 : Nat) (qrest : List Nat)
    (hq : s.queue = k0 :: qrest) (hrc : s.refcount k0 = 1)
    (hlen : s.max_size < s.cache.length)
    (hler : (alErase s.cache k0).length ≤ s.max_size) :
    (purge s).cache = alErase s.cache k0 ∧ (purge s).queue = qrest ∧
    (purge s).weakrefs = s.weakrefs ∧ (purge s).hits = s.hits ∧
    (purge s).misses = s.misses ∧ (purge s).refhits = s.refhits ∧
    (purge s).max_size = s.max_size := by
  have hpop : popUntilZero s.queue s.refcount
      = some (k0, qrest,
          fun j => if j = k0 then s.refcount k0 - 1 else s.refcount j) := by
    rw [hq]
    simp only [popUntilZero]
    rw [if_pos (by rw [hrc]; norm_num)]
  unfold purge
  rw [purgeGo, if_neg (by omega), hpop]
  dsimp only
  rw [hq]
  simp only [List.length_cons]
  rw [purgeGo, if_pos hler]
  exact ⟨rfl, rfl, rfl, rfl, rfl, rfl, rfl⟩

/-- Resolving one more fresh key when the cache is exactly full evicts the
oldest key `k0` and leaves the newer keys plus the new one, while `k0` stays
in the secondary weakref table. -/
theorem get_evict_facts (m : Nat) (r : Nat → Nat) (k0 : Nat) (L1 : List Nat) (key : Nat)
    (hnd : ((k0 :: L1) ++ [key]).Nodup) (hL : L1.length + 1 = m) :
    ((freshState m r (k0 :: L1)).get (someResolver r) key).1 = some (r key) ∧
    ((freshState m r (k0 :: L1)).get (someResolver r) key).2.cache
        = L1.map (fun k => (k, r k)) ++ [(key, r key)] ∧
    ((freshState m r (k0 :: L1)).get (someResolver r) key).2.weakrefs
        = (k0 :: L1).map (fun k => (k, r k)) ++ [(key, r key)] ∧
    ((freshState m r (k0 :: L1)).get (someResolver r) key).2.hits = 0 ∧
    ((freshState m r (k0 :: L1)).get (someResolver r) key).2.misses = m + 1 ∧
    ((freshState m r (k0 :: L1)).get (someResolver r) key).2.refhits = 0 ∧
    ((freshState m r (k0 :: L1)).get (someResolver r) key).2.max_size = m := by
  obtain ⟨hndL, hnd2, hdisj⟩ := List.nodup_append.mp hnd
  have hkey : key ∉ k0 :: L1 := fun hk => hdisj hk (by simp)
  have hk0key : ¬ (k0 = key) := by
    intro he
    have hmem : key ∈ k0 :: L1 := by
      rw [← he]; exact List.mem_cons_self k0 L1
    exact hkey hmem
  have hk0L1 : k0 ∉ L1 := (List.nodup_cons.mp hndL).1
  have hck : alLookup (freshState m r (k0 :: L1)).cache key = none := by
    show alLookup ((k0 :: L1).map fun k => (k, r k)) key = none
    rw [alLookup_map_fresh]
    simp [hkey]
  have hkeysc : key ∉ alKeys (freshState m r (k0 :: L1)).cache :=
    (alLookup_eq_none_iff _ _).mp hck
  have hcu : alUpdate (freshState m r (k0 :: L1)).cache key (r key)
      = (k0, r k0) :: (L1.map (fun k => (k, r k)) ++ [(key, r key)]) := by
    rw [alUpdate_not_mem_append _ _ _ hkeysc]
    show (k0 :: L1).map (fun k => (k, r k)) ++ [(key, r key)] = _
    simp
  have heq1 := get_miss_eq (someResolver r) (freshState m r (k0 :: L1)) key (r key)
    hck hck rfl
  have hnc : ¬(((missInsert (freshState m r (k0 :: L1)) key (r key)).queue ++ [key]).length
      > (missInsert (freshState m r (k0 :: L1)) key (r key)).max_queue) := by
    show ¬(((k0 :: L1) ++ [key]).length > m * 10)
    simp only [List.length_append, List.length_cons, List.length_nil]
    omega
  have heq2 := refKey_no_compact (missInsert (freshState m r (k0 :: L1)) key (r key)) key hnc
  have hqT : (refKey (missInsert (freshState m r (k0 :: L1)) key (r key)) key).queue
      = k0 :: (L1 ++ [key]) := by
    rw [heq2]
    exact rfl
  have hrcT : (refKey (missInsert (freshState m r (k0 :: L1)) key (r key)) key).refcount k0
      = 1 := by
    rw [heq2]
    show (if k0 = key then ((k0 :: L1).count k0 : Int) + 1
          else ((k0 :: L1).count k0 : Int)) = 1
    rw [if_neg hk0key]
    show ((k0 :: L1).count k0 : Int) = 1
    rw [List.count_cons_self, List.count_eq_zero.mpr hk0L1]
    simp
  have hlenT : (refKey (missInsert (freshState m r (k0 :: L1)) key (r key)) key).max_size
      < (refKey (missInsert (freshState m r (k0 :: L1)) key (r key)) key).cache.length := by
    rw [heq2]
    show m < (alUpdate (freshState m r (k0 :: L1)).cache key (r key)).length
    rw [alUpdate_length_not_mem _ _ _ hkeysc]
    have hcl : (freshState m r (k0 :: L1)).cache.length = L1.length + 1 := by
      show ((k0 :: L1).map fun k => (k, r k)).length = L1.length + 1
      simp
    omega
  have hlerT : (alErase (refKey (missInsert (freshState m r (k0 :: L1)) key (r key)) key).cache
        k0).length
      ≤ (refKey (missInsert (freshState m r (k0 :: L1)) key (r key)) key).max_size := by
    rw [heq2]
    show (alErase (alUpdate (freshState m r (k0 :: L1)).cache key (r key)) k0).length ≤ m
    rw [hcu]
    simp [alErase]
    omega
  have hpo := purge_evict_one _ k0 (L1 ++ [key]) hqT hrcT hlenT hlerT
  rw [heq1]
  refine ⟨rfl, ?_, ?_, ?_, ?_, ?_, ?_⟩
  · show (purge (refKey (missInsert (freshState m r (k0 :: L1)) key (r key)) key)).cache = _
    rw [hpo.1, heq2]
    show alErase (alUpdate (freshState m r (k0 :: L1)).cache key (r key)) k0 = _
    rw [hcu]
    simp [alErase]
  · show (purge (refKey (missInsert (freshState m r (k0 :: L1)) key (r key)) key)).weakrefs = _
    rw [hpo.2.2.1, heq2]
    show alUpdate (freshState m r (k0 :: L1)).weakrefs key (r key) = _
    rw [show (freshState m r (k0 :: L1)).weakrefs = (freshState m r (k0 :: L1)).cache from rfl,
        alUpdate_not_mem_append _ _ _ hkeysc]
    exact rfl
  · show (purge (refKey (missInsert (freshState m r (k0 :: L1)) key (r key)) key)).hits = 0
    rw [hpo.2.2.2.1, heq2]
    exact rfl
  · show (purge (refKey (missInsert (freshState m r (k0 :: L1)) key (r key)) key)).misses = m + 1
    rw [hpo.2.2.2.2.1, heq2]
    show (k0 :: L1).length + 1 = m + 1
    simp only [List.length_cons]
    omega
  · show (purge (refKey (missInsert (freshState m r (k0 :: L1)) key (r key)) key)).refhits = 0
    rw [hpo.2.2.2.2.2.1, heq2]
    exact rfl
  · show (purge (refKey (missInsert (freshState m r (k0 :: L1)) key (r key)) key)).max_size = m
    rw [hpo.2.2.2.2.2.2, heq2]
    exact rfl

/-- A `get` answered from the secondary table returns the stored value,
bumps `refhits` only, and re-promotes the key into the primary cache. -/
theorem get_ref_hit_counters (f : Nat → Option Nat) (s : LRUState) (key v : Nat)
    (h1 : alLookup s.cache key = none) (h2 : alLookup s.weakrefs key = some v) :
    (s.get f key).1 = some v ∧
    (s.get f key).2.refhits = s.refhits + 1 ∧
    (s.get f key).2.misses = s.misses ∧
    (s.get f key).2.hits = s.hits ∧
    key ∈ alKeys (s.get f key).2.cache := by
  rw [get_ref_hit_eq f s key v h1 h2]
  have hf := refKey_frame
    { s with refhits := s.refhits + 1, cache := alUpdate s.cache key v } key
  refine ⟨rfl, ?_, ?_, ?_, ?_⟩
  · show (refKey _ key).refhits = s.refhits + 1
    rw [hf.2.2.2.2.1]
  · show (refKey _ key).misses = s.misses
    rw [hf.2.2.2.1]
  · show (refKey _ key).hits = s.hits
    rw [hf.2.2.1]
  · show key ∈ alKeys (refKey _ key).cache
    rw [hf.1]
    show key ∈ alKeys (alUpdate s.cache key v)
    by_cases hm : key ∈ alKeys s.cache
    · rw [alKeys_update_mem _ _ _ hm]; exact hm
    · rw [alKeys_update_not_mem _ _ _ hm]; simp

/-- Claim C4: filling a fresh cache of capacity `max_size = |L1| + 1 ≥ 1`
with the `max_size + 1` distinct keys `k0 :: L1 ++ [key]` via resolver
misses leaves exactly `max_size` keys in the primary cache, evicting the
least recently referenced key `k0` first (all later keys stay); `k0` remains
reachable in the secondary table, and a subsequent `get k0` is counted as a
ref-hit, returns the cached value, re-promotes `k0` into the primary cache,
and does not invoke the resolver (`misses`, the resolver-invocation count,
is unchanged). -/
theorem claim_C4 (m : Nat) (r : Nat → Nat) (k0 : Nat) (L1 : List Nat) (key : Nat)
    (hnd : ((k0 :: L1) ++ [key]).Nodup) (hL : L1.length + 1 = m) :
    (runOps (someResolver r) (((k0 :: L1) ++ [key]).map SyncOp.get)
        (initState m)).cache.length = m ∧
    alLookup (runOps (someResolver r) (((k0 :: L1) ++ [key]).map SyncOp.get)
        (initState m)).cache k0 = none ∧
    (∀ k, k ∈ L1 ++ [key] →
      k ∈ alKeys (runOps (someResolver r) (((k0 :: L1) ++ [key]).map SyncOp.get)
        (initState m)).cache) ∧
    alLookup (runOps (someResolver r) (((k0 :: L1) ++ [key]).map SyncOp.get)
        (initState m)).weakrefs k0 = some (r k0) ∧
    ((runOps (someResolver r) (((k0 :: L1) ++ [key]).map SyncOp.get)
        (initState m)).get (someResolver r) k0).1 = some (r k0) ∧
    ((runOps (someResolver r) (((k0 :: L1) ++ [key]).map SyncOp.get)
        (initState m)).get (someResolver r) k0).2.refhits
      = (runOps (someResolver r) (((k0 :: L1) ++ [key]).map SyncOp.get)
        (initState m)).refhits + 1 ∧
    ((runOps (someResolver r) (((k0 :: L1) ++ [key]).map SyncOp.get)
        (initState m)).get (someResolver r) k0).2.misses
      = (runOps (someResolver r) (((k0 :: L1) ++ [key]).map SyncOp.get)
        (initState m)).misses ∧
    k0 ∈ alKeys ((runOps (someResolver r) (((k0 :: L1) ++ [key]).map SyncOp.get)
        (initState m)).get (someResolver r) k0).2.cache := by
  obtain ⟨hndL, _, hdisj⟩ := List.nodup_append.mp hnd
  have hkey : key ∉ k0 :: L1 := fun hk => hdisj hk (by simp)
  have hk0key : ¬ (k0 = key) := by
    intro he
    have hmem : key ∈ k0 :: L1 := by
      rw [← he]; exact List.mem_cons_self k0 L1
    exact hkey hmem
  have hk0L1 : k0 ∉ L1 := (List.nodup_cons.mp hndL).1
  have hfill : runOps (someResolver r) ((k0 :: L1).map SyncOp.get) (initState m)
      = freshState m r (k0 :: L1) := by
    have h0 := runGets_fresh m r (k0 :: L1) [] hndL
      (by simp only [List.nil_append, List.length_cons]; omega)
    rw [freshState_nil] at h0
    exact h0
  have hrun : runOps (someResolver r) (((k0 :: L1) ++ [key]).map SyncOp.get) (initState m)
      = ((freshState m r (k0 :: L1)).get (someResolver r) key).2 := by
    rw [List.map_append, runOps_append, hfill]
    exact rfl
  have E := get_evict_facts m r k0 L1 key hnd hL
  have hmapapp : L1.map (fun k => (k, r k)) ++ [(key, r key)]
      = (L1 ++ [key]).map (fun k => (k, r k)) := by simp
  have hc1 : alLookup (((freshState m r (k0 :: L1)).get (someResolver r) key).2).cache k0
      = none := by
    rw [E.2.1, hmapapp, alLookup_map_fresh]
    simp [hk0L1, hk0key]
  have hw1 : alLookup (((freshState m r (k0 :: L1)).get (someResolver r) key).2).weakrefs k0
      = some (r k0) := by
    rw [E.2.2.1]
    show alLookup ((k0, r k0) :: (L1.map (fun k => (k, r k)) ++ [(key, r key)])) k0
        = some (r k0)
    simp [alLookup]
  have R := get_ref_hit_counters (someResolver r)
    ((freshState m r (k0 :: L1)).get (someResolver r) key).2 k0 (r k0) hc1 hw1
  rw [hrun]
  refine ⟨?_, hc1, ?_, hw1, R.1, ?_, R.2.2.1, R.2.2.2.2⟩
  · rw [E.2.1, hmapapp]
    simp only [List.length_map, List.length_append, List.length_cons, List.length_nil]
    omega
  · intro k hk
    rw [E.2.1, hmapapp, alKeys_map_fresh]
    exact hk
  · exact R.2.1

/-- Witness for C4 at capacity 2 with keys 1, 2, 3. -/
theorem claim_C4_witness :
    (runOps (someResolver (fun k => k * 10)) (((1 :: [2]) ++ [3]).map SyncOp.get)
        (initState 2)).cache.length = 2 ∧
    alLookup (runOps (someResolver (fun k => k * 10)) (((1 :: [2]) ++ [3]).map SyncOp.get)
        (initState 2)).cache 1 = none ∧
    alLookup (runOps (someResolver (fun k => k * 10)) (((1 :: [2]) ++ [3]).map SyncOp.get)
        (initState 2)).weakrefs 1 = some 10 :=
  ⟨(claim_C4 2 (fun k => k * 10) 1 [2] 3 (by decide) (by decide)).1,
   (claim_C4 2 (fun k => k * 10) 1 [2] 3 (by decide) (by decide)).2.1,
   (claim_C4 2 (fun k => k * 10) 1 [2] 3 (by decide) (by decide)).2.2.2.1⟩

/-! ## The asynchronous LRU cache (`AsyncLRUCache` in `lru.py`) -/

/-- Outcome of one resolver deferred: `ok v` when it fires its callback with
result `v` (`none` = Python `None`, not cached), `fail f` when it errbacks
with a failure identified by `f`. -/
inductive Outcome where
  | ok : Option Nat → Outcome
  | fail : Nat → Outcome
deriving DecidableEq

/-- What a caller of the async `get` observes immediately: an already-fired
deferred carrying the cached value (`defer.succeed`), or a fresh pending
deferred identified by its slot id. -/
inductive GetRes where
  | now : Nat → GetRes
  | wait : Nat → GetRes
deriving DecidableEq

/-- `AsyncLRUCache` state: the inherited `LRUCache` fields plus `concurrent`
(the pending-waiter deferred list per key).  Deferreds are named by `nextId`;
`calls` and `completions` log the interaction with the resolver (invocations
of `miss_fn`, and firings of the deferred it returned); `delivered` logs the
outcome fired into each waiter deferred; `logged` records what reaches the
trailing `addErrback(log.err)` hook. -/
structure AsyncState where
  base : LRUState
  concurrent : List (Nat × List Nat)
  nextId : Nat
  calls : List Nat
  completions : List Nat
  delivered : List (Nat × Outcome)
  logged : List Nat

def initAsync (m : Nat) : AsyncState :=
  { base := initState m
    concurrent := []
    nextId := 0
    calls := []
    completions := []
    delivered := []
    logged := [] }

/-- `AsyncLRUCache.get`: a hit or ref-hit answers immediately; a key whose
`concurrent` entry is truthy (non-empty list) coalesces — count a hit and
append a fresh deferred, without invoking the resolver; otherwise count a
miss, register the waiter list `[d]` and invoke the resolver.  An entry
mapping to an empty list is falsy, so Python would take the miss branch and
crash on `assert key not in self.concurrent`; such entries never arise (the
code only ever stores non-empty lists), and the model leaves the state
unchanged there. -/
def aget (s : AsyncState) (key : Nat) : GetRes × AsyncState :=
  match getHit s.base key with
  | some (v, b') => (GetRes.now v, { s with base := b' })
  | none =>
      match alLookup s.concurrent key with
      | some ds =>
          if ds = [] then (GetRes.wait s.nextId, s)
          else
            (GetRes.wait s.nextId,
             { s with base := { s.base with hits := s.base.hits + 1 }
                      concurrent := alUpdate s.concurrent key (ds ++ [s.nextId])
                      nextId := s.nextId + 1 })
      | none =>
          (GetRes.wait s.nextId,
           { s with base := { s.base with misses := s.base.misses + 1 }
                    concurrent := alUpdate s.concurrent key [s.nextId]
                    nextId := s.nextId + 1
                    calls := s.calls ++ [key] })

/-- Result of one deferred-chain stage: a twisted callback or errback that
returns a plain value continues the success chain; one that raises switches
the chain to failure. -/
inductive ChainRes where
  | succ : ChainRes
  | failure : Nat → ChainRes

/-- `handle_result`: if the resolver value is non-`None`, insert it into
both tables, reference the key once (standing in for all coalesced callers)
and purge; then pop the waiter list and fire every waiter with the result.
It returns a plain value, hence `succ`. -/
def handleResult (s : AsyncState) (key : Nat) (v : Option Nat) (ds : List Nat) :
    ChainRes × AsyncState :=
  let b' := match v with
    | some value =>
        purge (refKey { s.base with cache := alUpdate s.base.cache key value
                                    weakrefs := alUpdate s.base.weakrefs key value } key)
    | none => s.base
  (ChainRes.succ,
   { s with base := b'
            concurrent := alErase s.concurrent key
            delivered := s.delivered ++ ds.map (fun w => (w, Outcome.ok v)) })

/-- `handle_failure`: pop the waiter list and errback every waiter with the
failure.  It returns a plain value (Python `None`), which in twisted's chain
semantics marks the failure as handled. -/
def handleFailure (s : AsyncState) (key : Nat) (fv : Nat) (ds : List Nat) :
    ChainRes × AsyncState :=
  (ChainRes.succ,
   { s with concurrent := alErase s.concurrent key
            delivered := s.delivered ++ ds.map (fun w => (w, Outcome.fail fv)) })

/-- The trailing `miss_d.addErrback(log.err)`: `log.err` fires only when the
preceding stage left the chain in the failure state. -/
def logErrStage (s : AsyncState) (res : ChainRes) : AsyncState :=
  match res with
  | ChainRes.succ => s
  | ChainRes.failure fv => { s with logged := s.logged ++ [fv] }

/-- Firing of the resolver's deferred for `key` with outcome `out`: runs the
`addCallbacks(handle_result, handle_failure)` pair, then the
`addErrback(log.err)` stage.  A completion can only occur for a key whose
fetch is in flight, i.e. registered in `concurrent`; the guard makes the
function total. -/
def complete (s : AsyncState) (key : Nat) (out : Outcome) : AsyncState :=
  match alLookup s.concurrent key with
  | none => s
  | some ds =>
      let s0 := { s with completions := s.completions ++ [key] }
      let step := match out with
        | Outcome.ok v => handleResult s0 key v ds
        | Outcome.fail fv => handleFailure s0 key fv ds
      logErrStage step.2 step.1

/-- One event of an async-cache execution: a caller invoking `get`, or the
resolver's deferred for a key firing. -/
inductive AEv where
  | get : Nat → AEv
  | complete : Nat → Outcome → AEv

def applyAEv (s : AsyncState) : AEv → AsyncState
  | AEv.get k => (aget s k).2
  | AEv.complete k out => complete s k out

def runA : List AEv → AsyncState → AsyncState
  | [], s => s
  | e :: rest, s => runA rest (applyAEv s e)

/-- Trace invariant of the async cache: waiter lists have unique keys and
are never empty, and per key the number of resolver invocations equals the
number of completions plus one exactly when a fetch is in flight. -/
def AsyncInv (s : AsyncState) : Prop :=
  (alKeys s.concurrent).Nodup ∧
  (∀ key ds, alLookup s.concurrent key = some ds → ds ≠ []) ∧
  (∀ key, s.calls.count key
      = s.completions.count key
        + (if (alLookup s.concurrent key).isSome then 1 else 0))

theorem aget_hit_eq (s : AsyncState) (key v : Nat) (b' : LRUState)
    (h : getHit s.base key = some (v, b')) :
    aget s key = (GetRes.now v, { s with base := b' }) := by
  unfold aget
  rw [h]

theorem aget_coalesce_eq (s : AsyncState) (key : Nat) (ds : List Nat)
    (hg : getHit s.base key = none) (hc : alLookup s.concurrent key = some ds)
    (hne : ds ≠ []) :
    aget s key = (GetRes.wait s.nextId,
      { s with base := { s.base with hits := s.base.hits + 1 }
               concurrent := alUpdate s.concurrent key (ds ++ [s.nextId])
               nextId := s.nextId + 1 }) := by
  unfold aget
  rw [hg, hc]
  dsimp only
  rw [if_neg hne]

theorem aget_miss_eq (s : AsyncState) (key : Nat)
    (hg : getHit s.base key = none) (hc : alLookup s.concurrent key = none) :
    aget s key = (GetRes.wait s.nextId,
      { s with base := { s.base with misses := s.base.misses + 1 }
               concurrent := alUpdate s.concurrent key [s.nextId]
               nextId := s.nextId + 1
               calls := s.calls ++ [key] }) := by
  unfold aget
  rw [hg, hc]

theorem complete_some_proj (s : AsyncState) (key : Nat) (out : Outcome) (ds : List Nat)
    (hc : alLookup s.concurrent key = some ds) :
    (complete s key out).concurrent = alErase s.concurrent key ∧
    (complete s key out).calls = s.calls ∧
    (complete s key out).completions = s.completions ++ [key] ∧
    (complete s key out).delivered = s.delivered ++ ds.map (fun w => (w, out)) ∧
    (complete s key out).logged = s.logged ∧
    (complete s key out).nextId = s.nextId := by
  unfold complete
  rw [hc]
  cases out with
  | ok v => exact ⟨rfl, rfl, rfl, rfl, rfl, rfl⟩
  | fail fv => exact ⟨rfl, rfl, rfl, rfl, rfl, rfl⟩

theorem complete_fail_base (s : AsyncState) (key fv : Nat) (ds : List Nat)
    (hc : alLookup s.concurrent key = some ds) :
    (complete s key (Outcome.fail fv)).base = s.base := by
  unfold complete
  rw [hc]
  exact rfl

theorem initAsync_inv (m : Nat) : AsyncInv (initAsync m) := by
  refine ⟨?_, ?_, ?_⟩
  · simp [initAsync, alKeys]
  · intro key ds h
    simp [initAsync, alLookup] at h
  · intro key
    simp [initAsync, alLookup]

theorem aget_inv (s : AsyncState) (key : Nat) (h : AsyncInv s) :
    AsyncInv (aget s key).2 := by
  obtain ⟨hnd, hne, hcnt⟩ := h
  cases hg : getHit s.base key with
  | some p =>
      obtain ⟨v, b'⟩ := p
      rw [aget_hit_eq s key v b' hg]
      exact ⟨hnd, hne, hcnt⟩
  | none =>
      cases hc : alLookup s.concurrent key with
      | some ds =>
          have hdne : ds ≠ [] := hne key ds hc
          rw [aget_coalesce_eq s key ds hg hc hdne]
          have hkeymem : key ∈ alKeys s.concurrent := by
            rw [← alLookup_isSome_iff]
            simp [hc]
          refine ⟨?_, ?_, ?_⟩
          · show (alKeys (alUpdate s.concurrent key (ds ++ [s.nextId]))).Nodup
            rw [alKeys_update_mem _ _ _ hkeymem]
            exact hnd
          · intro key' ds' hlk
            show ds' ≠ []
            by_cases hk : key = key'
            · subst hk
              rw [show alLookup (alUpdate s.concurrent key (ds ++ [s.nextId])) key
                  = some (ds ++ [s.nextId]) from alLookup_update_self _ _ _] at hlk
              injection hlk with hlk2
              rw [← hlk2]
              simp
            · rw [show alLookup (alUpdate s.concurrent key (ds ++ [s.nextId])) key'
                  = alLookup s.concurrent key' from alLookup_update_ne _ _ _ _ hk] at hlk
              exact hne key' ds' hlk
          · intro key'
            show s.calls.count key' = s.completions.count key' + _
            by_cases hk : key = key'
            · subst hk
              rw [alLookup_update_self]
              have hh := hcnt key
              rw [hc] at hh
              simpa using hh
            · rw [alLookup_update_ne _ _ _ _ hk]
              exact hcnt key'
      | none =>
          rw [aget_miss_eq s key hg hc]
          have hkeynm : key ∉ alKeys s.concurrent := (alLookup_eq_none_iff _ _).mp hc
          refine ⟨?_, ?_, ?_⟩
          · show (alKeys (alUpdate s.concurrent key [s.nextId])).Nodup
            rw [alKeys_update_not_mem _ _ _ hkeynm]
            exact List.Nodup.append hnd (List.nodup_singleton key) (by simpa using hkeynm)
          · intro key' ds' hlk
            show ds' ≠ []
            by_cases hk : key = key'
            · subst hk
              rw [show alLookup (alUpdate s.concurrent key [s.nextId]) key
                  = some [s.nextId] from alLookup_update_self _ _ _] at hlk
              injection hlk with hlk2
              rw [← hlk2]
              simp
            · rw [show alLookup (alUpdate s.concurrent key [s.nextId]) key'
                  = alLookup s.concurrent key' from alLookup_update_ne _ _ _ _ hk] at hlk
              exact hne key' ds' hlk
          · intro key'
            show (s.calls ++ [key]).count key' = s.completions.count key' + _
            by_cases hk : key = key'
            · subst hk
              rw [alLookup_update_self, List.count_append]
              have hh := hcnt key
              rw [hc] at hh
              simp only [Option.isSome_none, Bool.false_eq_true, if_false] at hh
              simp [hh, List.count_cons]
            · rw [alLookup_update_ne _ _ _ _ hk, List.count_append]
              have h0 : List.count key' [key] = 0 := by
                simp [List.count_cons, Ne.symm hk]
              rw [h0]
              simpa using hcnt key'

theorem complete_inv (s : AsyncState) (key : Nat) (out : Outcome)
    (h : AsyncInv s) : AsyncInv (complete s key out) := by
  obtain ⟨hnd, hne, hcnt⟩ := h
  cases hc : alLookup s.concurrent key with
  | none =>
      unfold complete
      rw [hc]
      exact ⟨hnd, hne, hcnt⟩
  | some ds =>
      obtain ⟨hcc, hcl, hcp, _, _, _⟩ := complete_some_proj s key out ds hc
      refine ⟨?_, ?_, ?_⟩
      · rw [hcc]
        exact alKeys_erase_nodup _ _ hnd
      · intro key' ds' hlk
        rw [hcc] at hlk
        by_cases hk : key' = key
        · subst hk
          rw [alLookup_erase_self _ _ hnd] at hlk
          cases hlk
        · rw [alLookup_erase_ne _ _ _ hk] at hlk
          exact hne key' ds' hlk
      · intro key'
        rw [hcl, hcp, hcc]
        by_cases hk : key' = key
        · subst hk
          rw [alLookup_erase_self _ _ hnd]
          have hh := hcnt key'
          rw [hc] at hh
          simp only [Option.isSome_some, if_true] at hh
          simp [List.count_append, List.count_cons, hh]
        · rw [alLookup_erase_ne _ _ _ hk, List.count_append]
          have h0 : List.count key' [key] = 0 := by
            simp [List.count_cons, hk]
          rw [h0]
          simpa using hcnt key'

theorem runA_inv : ∀ (evs : List AEv) (s : AsyncState),
    AsyncInv s → AsyncInv (runA evs s) := by
  intro evs
  induction evs with
  | nil => intro s h; exact h
  | cons e rest ih =>
      intro s h
      refine ih _ ?_
      cases e with
      | get k => exact aget_inv s k h
      | complete k out => exact complete_inv s k out h

/-- Claim C2: at most one resolver call per key is outstanding at any time —
along every event trace, the number of resolver invocations for a key never
exceeds its completions by more than one; a `get` for a key whose fetch is
in flight does not invoke the resolver and appends its fresh deferred to the
pending-waiter list; and when the fetch completes, every registered waiter
is fired with the one same outcome. -/
theorem claim_C2 :
    (∀ (s : AsyncState) (key : Nat) (ds : List Nat),
      alLookup s.base.cache key = none → alLookup s.base.weakrefs key = none →
      alLookup s.concurrent key = some ds → ds ≠ [] →
      (aget s key).2.calls = s.calls ∧
      alLookup (aget s key).2.concurrent key = some (ds ++ [s.nextId]) ∧
      (aget s key).1 = GetRes.wait s.nextId) ∧
    (∀ (m : Nat) (evs : List AEv) (key : Nat),
      (runA evs (initAsync m)).calls.count key
        ≤ (runA evs (initAsync m)).completions.count key + 1) ∧
    (∀ (s : AsyncState) (key : Nat) (out : Outcome) (ds : List Nat),
      alLookup s.concurrent key = some ds →
      (complete s key out).delivered = s.delivered ++ ds.map (fun w => (w, out))) := by
  refine ⟨?_, ?_, ?_⟩
  · intro s key ds hc hw hconc hne
    rw [aget_coalesce_eq s key ds (getHit_miss _ _ hc hw) hconc hne]
    exact ⟨rfl, alLookup_update_self _ _ _, rfl⟩
  · intro m evs key
    have h := (runA_inv evs (initAsync m) (initAsync_inv m)).2.2 key
    rw [h]
    split <;> omega
  · intro s key out ds hconc
    exact (complete_some_proj s key out ds hconc).2.2.2.1

/-- Witness for C2: a second `get 5` while key 5 is in flight coalesces. -/
theorem claim_C2_witness :
    (aget (aget (initAsync 1) 5).2 5).2.calls = (aget (initAsync 1) 5).2.calls ∧
    alLookup (aget (aget (initAsync 1) 5).2 5).2.concurrent 5 = some [0, 1] ∧
    (aget (aget (initAsync 1) 5).2 5).1 = GetRes.wait 1 :=
  claim_C2.1 (aget (initAsync 1) 5).2 5 [0] (by decide) (by decide) (by decide)
    (by decide)

/-- Counterexample to C3 as stated: a resolver failure is delivered to the
coalesced waiter and the pending entry cleared, yet nothing reaches the
trailing `addErrback(log.err)` hook — `handle_failure` returns a plain
value, which in twisted's chain semantics consumes the failure, so the
process-wide sink logs nothing. -/
theorem claim_C3_cex :
    (runA [AEv.get 5, AEv.complete 5 (Outcome.fail 7)] (initAsync 1)).delivered
      = [(0, Outcome.fail 7)] ∧
    (runA [AEv.get 5, AEv.complete 5 (Outcome.fail 7)] (initAsync 1)).completions = [5] ∧
    (runA [AEv.get 5, AEv.complete 5 (Outcome.fail 7)] (initAsync 1)).logged = [] :=
  ⟨rfl, rfl, rfl⟩

/-- Claim C3 (amended): when the resolver fails for `key`, the failure is
delivered to every pending waiter for `key`, the pending-waiter list is
cleared, and the key is left absent from both cache tables; but the failure
is NOT logged to the process-wide sink — `handle_failure` consumes it, so
the attached `log.err` errback sees a success and records nothing. -/
theorem claim_C3 (s : AsyncState) (key fv : Nat) (ds : List Nat)
    (hconc : alLookup s.concurrent key = some ds)
    (hnd : (alKeys s.concurrent).Nodup)
    (hcn : alLookup s.base.cache key = none)
    (hwn : alLookup s.base.weakrefs key = none) :
    (complete s key (Outcome.fail fv)).delivered
      = s.delivered ++ ds.map (fun w => (w, Outcome.fail fv)) ∧
    alLookup (complete s key (Outcome.fail fv)).concurrent key = none ∧
    alLookup (complete s key (Outcome.fail fv)).base.cache key = none ∧
    alLookup (complete s key (Outcome.fail fv)).base.weakrefs key = none ∧
    (complete s key (Outcome.fail fv)).logged = s.logged := by
  obtain ⟨hcc, _, _, hdel, hlog, _⟩ := complete_some_proj s key (Outcome.fail fv) ds hconc
  have hbase := complete_fail_base s key fv ds hconc
  refine ⟨hdel, ?_, ?_, ?_, hlog⟩
  · rw [hcc]
    exact alLookup_erase_self _ _ hnd
  · rw [hbase]
    exact hcn
  · rw [hbase]
    exact hwn

/-- Witness for the amended C3 at a concrete in-flight failure. -/
theorem claim_C3_witness :
    (complete (aget (initAsync 1) 5).2 5 (Outcome.fail 7)).delivered
      = (aget (initAsync 1) 5).2.delivered ++ [0].map (fun w => (w, Outcome.fail 7)) ∧
    alLookup (complete (aget (initAsync 1) 5).2 5 (Outcome.fail 7)).concurrent 5 = none ∧
    alLookup (complete (aget (initAsync 1) 5).2 5 (Outcome.fail 7)).base.cache 5 = none ∧
    alLookup (complete (aget (initAsync 1) 5).2 5 (Outcome.fail 7)).base.weakrefs 5 = none ∧
    (complete (aget (initAsync 1) 5).2 5 (Outcome.fail 7)).logged
      = (aget (initAsync 1) 5).2.logged :=
  claim_C3 (aget (initAsync 1) 5).2 5 7 [0] (by decide) (by decide) (by decide) (by decide)

/-! ## Counter accounting (claim C10) -/

theorem put_counters (s : LRUState) (key value : Nat) :
    (s.put key value).hits = s.hits ∧ (s.put key value).refhits = s.refhits ∧
    (s.put key value).misses = s.misses := by
  unfold LRUState.put
  by_cases h1 : alContains s.cache key = true
  · rw [if_pos h1]
    exact ⟨rfl, rfl, rfl⟩
  · rw [if_neg h1]
    by_cases h2 : alContains s.weakrefs key = true
    · rw [if_pos h2]
      exact ⟨rfl, rfl, rfl⟩
    · rw [if_neg h2]
      exact ⟨rfl, rfl, rfl⟩

theorem set_max_size_counters (s : LRUState) (m : Nat) :
    (s.set_max_size m).hits = s.hits ∧ (s.set_max_size m).refhits = s.refhits ∧
    (s.set_max_size m).misses = s.misses := by
  unfold LRUState.set_max_size
  by_cases h : s.max_size = m
  · rw [if_pos h]
    exact ⟨rfl, rfl, rfl⟩
  · rw [if_neg h]
    have hp := purge_frame { s with max_size := m, max_queue := m * 10 }
    exact ⟨hp.2.1, hp.2.2.2.1, hp.2.2.1⟩

theorem aget_counter_step (s : AsyncState) (key : Nat)
    (hne : ∀ ds, alLookup s.concurrent key = some ds → ds ≠ []) :
    (aget s key).2.base.hits + (aget s key).2.base.refhits + (aget s key).2.base.misses
      = s.base.hits + s.base.refhits + s.base.misses + 1 := by
  cases hcl : alLookup s.base.cache key with
  | some v =>
      rw [aget_hit_eq s key v _ (getHit_cache_hit s.base key v hcl)]
      have hf := refKey_frame { s.base with hits := s.base.hits + 1 } key
      show (refKey { s.base with hits := s.base.hits + 1 } key).hits
          + (refKey { s.base with hits := s.base.hits + 1 } key).refhits
          + (refKey { s.base with hits := s.base.hits + 1 } key).misses = _
      rw [hf.2.2.1, hf.2.2.2.1, hf.2.2.2.2.1]
      show s.base.hits + 1 + s.base.refhits + s.base.misses = _
      omega
  | none =>
      cases hwl : alLookup s.base.weakrefs key with
      | some v =>
          rw [aget_hit_eq s key v _ (getHit_ref_hit s.base key v hcl hwl)]
          have hf := refKey_frame
            { s.base with refhits := s.base.refhits + 1
                          cache := alUpdate s.base.cache key v } key
          show (refKey { s.base with refhits := s.base.refhits + 1
                                     cache := alUpdate s.base.cache key v } key).hits
              + (refKey { s.base with refhits := s.base.refhits + 1
                                      cache := alUpdate s.base.cache key v } key).refhits
              + (refKey { s.base with refhits := s.base.refhits + 1
                                      cache := alUpdate s.base.cache key v } key).misses = _
          rw [hf.2.2.1, hf.2.2.2.1, hf.2.2.2.2.1]
          show s.base.hits + (s.base.refhits + 1) + s.base.misses = _
          omega
      | none =>
          have hg := getHit_miss s.base key hcl hwl
          cases hc : alLookup s.concurrent key with
          | some ds =>
              rw [aget_coalesce_eq s key ds hg hc (hne ds hc)]
              show s.base.hits + 1 + s.base.refhits + s.base.misses = _
              omega
          | none =>
              rw [aget_miss_eq s key hg hc]
              show s.base.hits + s.base.refhits + (s.base.misses + 1) = _
              omega

theorem complete_counters (s : AsyncState) (key : Nat) (out : Outcome) :
    (complete s key out).base.hits = s.base.hits ∧
    (complete s key out).base.refhits = s.base.refhits ∧
    (complete s key out).base.misses = s.base.misses := by
  unfold complete
  cases hc : alLookup s.concurrent key with
  | none => exact ⟨rfl, rfl, rfl⟩
  | some ds =>
      cases out with
      | fail fv => exact ⟨rfl, rfl, rfl⟩
      | ok v =>
          cases v with
          | none => exact ⟨rfl, rfl, rfl⟩
          | some value =>
              have hrf := refKey_frame
                { s.base with cache := alUpdate s.base.cache key value
                              weakrefs := alUpdate s.base.weakrefs key value } key
              have hpf := purge_frame (refKey
                { s.base with cache := alUpdate s.base.cache key value
                              weakrefs := alUpdate s.base.weakrefs key value } key)
              refine ⟨?_, ?_, ?_⟩
              · show (purge (refKey
                    { s.base with cache := alUpdate s.base.cache key value
                                  weakrefs := alUpdate s.base.weakrefs key value } key)).hits
                    = s.base.hits
                rw [hpf.2.1, hrf.2.2.1]
              · show (purge (refKey
                    { s.base with cache := alUpdate s.base.cache key value
                                  weakrefs := alUpdate s.base.weakrefs key value } key)).refhits
                    = s.base.refhits
                rw [hpf.2.2.2.1, hrf.2.2.2.2.1]
              · show (purge (refKey
                    { s.base with cache := alUpdate s.base.cache key value
                                  weakrefs := alUpdate s.base.weakrefs key value } key)).misses
                    = s.base.misses
                rw [hpf.2.2.1, hrf.2.2.2.1]

def isGetOp : SyncOp → Bool
  | SyncOp.get _ => true
  | _ => false

def isGetEv : AEv → Bool
  | AEv.get _ => true
  | _ => false

theorem runOps_counters (f : Nat → Option Nat) :
    ∀ (ops : List SyncOp) (s : LRUState),
      (runOps f ops s).hits + (runOps f ops s).refhits + (runOps f ops s).misses
        = s.hits + s.refhits + s.misses + ops.countP (fun op => isGetOp op) := by
  intro ops
  induction ops with
  | nil => intro s; simp [runOps]
  | cons op rest ih =>
      intro s
      rw [runOps]
      rw [ih (applyOp f s op)]
      have hstep : (applyOp f s op).hits + (applyOp f s op).refhits
          + (applyOp f s op).misses
          = s.hits + s.refhits + s.misses + (if isGetOp op then 1 else 0) := by
        cases op with
        | get k =>
            show (s.get f k).2.hits + (s.get f k).2.refhits + (s.get f k).2.misses = _
            rw [get_counter_step f s k]
            simp [isGetOp]
        | put k v =>
            obtain ⟨h1, h2, h3⟩ := put_counters s k v
            show (s.put k v).hits + (s.put k v).refhits + (s.put k v).misses = _
            rw [h1, h2, h3]
            simp [isGetOp]
        | setMax m =>
            obtain ⟨h1, h2, h3⟩ := set_max_size_counters s m
            show (s.set_max_size m).hits + (s.set_max_size m).refhits
                + (s.set_max_size m).misses = _
            rw [h1, h2, h3]
            simp [isGetOp]
      rw [hstep, List.countP_cons]
      split <;> omega

theorem runA_counters :
    ∀ (evs : List AEv) (s : AsyncState), AsyncInv s →
      (runA evs s).base.hits + (runA evs s).base.refhits + (runA evs s).base.misses
        = s.base.hits + s.base.refhits + s.base.misses
          + evs.countP (fun e => isGetEv e) := by
  intro evs
  induction evs with
  | nil => intro s _; simp [runA]
  | cons e rest ih =>
      intro s hinv
      rw [runA]
      have hinv' : AsyncInv (applyAEv s e) := by
        cases e with
        | get k => exact aget_inv s k hinv
        | complete k out => exact complete_inv s k out hinv
      rw [ih (applyAEv s e) hinv']
      have hstep : (applyAEv s e).base.hits + (applyAEv s e).base.refhits
          + (applyAEv s e).base.misses
          = s.base.hits + s.base.refhits + s.base.misses
            + (if isGetEv e then 1 else 0) := by
        cases e with
        | get k =>
            show (aget s k).2.base.hits + (aget s k).2.base.refhits
                + (aget s k).2.base.misses = _
            rw [aget_counter_step s k (fun ds hds => hinv.2.1 k ds hds)]
            simp [isGetEv]
        | complete k out =>
            obtain ⟨h1, h2, h3⟩ := complete_counters s k out
            show (complete s k out).base.hits + (complete s k out).base.refhits
                + (complete s k out).base.misses = _
            rw [h1, h2, h3]
            simp [isGetEv]
      rw [hstep, List.countP_cons]
      split <;> omega

/-- Claim C10: every `get`, on both the synchronous and the asynchronous
cache, bumps exactly one of `hits`, `refhits`, `misses` by one (a coalesced
async `get` counting as a hit), so hits + refhits + misses always equals the
number of `get` calls made so far. -/
theorem claim_C10 (f : Nat → Option Nat) :
    (∀ (s : LRUState) (key : Nat),
      (s.get f key).2.hits + (s.get f key).2.refhits + (s.get f key).2.misses
        = s.hits + s.refhits + s.misses + 1) ∧
    (∀ (s : AsyncState) (key : Nat),
      (∀ ds, alLookup s.concurrent key = some ds → ds ≠ []) →
      (aget s key).2.base.hits + (aget s key).2.base.refhits
        + (aget s key).2.base.misses
        = s.base.hits + s.base.refhits + s.base.misses + 1) ∧
    (∀ (m : Nat) (ops : List SyncOp),
      (runOps f ops (initState m)).hits + (runOps f ops (initState m)).refhits
        + (runOps f ops (initState m)).misses
        = ops.countP (fun op => isGetOp op)) ∧
    (∀ (m : Nat) (evs : List AEv),
      (runA evs (initAsync m)).base.hits + (runA evs (initAsync m)).base.refhits
        + (runA evs (initAsync m)).base.misses
        = evs.countP (fun e => isGetEv e)) := by
  refine ⟨get_counter_step f, aget_counter_step, ?_, ?_⟩
  · intro m ops
    rw [runOps_counters f ops (initState m)]
    show 0 + 0 + 0 + _ = _
    omega
  · intro m evs
    rw [runA_counters evs (initAsync m) (initAsync_inv m)]
    show 0 + 0 + 0 + _ = _
    omega

/-- Witness for C10 at a concrete async coalesced state. -/
theorem claim_C10_witness :
    (aget (initAsync 2) 3).2.base.hits + (aget (initAsync 2) 3).2.base.refhits
      + (aget (initAsync 2) 3).2.base.misses
      = (initAsync 2).base.hits + (initAsync 2).base.refhits
        + (initAsync 2).base.misses + 1 :=
  (claim_C10 (fun _ => none)).2.1 (initAsync 2) 3
    (fun ds h => by simp [initAsync, alLookup] at h)

/-! ## Scheduler base engine (modelled from the spec)

The implementation file `master/buildbot/schedulers/base.py` is not among
the provided sources — only its unit tests are — so the definitions below
are modelled from the specification (§4.3–§4.5, §8) and checked against the
behaviour the unit tests pin down. -/

/-- A change as read from the change store (§3 of the spec). -/
structure Change where
  changeid : Nat
  branch : String
  revision : String
  repository : String
  project : String
  codebase : String
deriving DecidableEq

/-- The per-codebase source snapshot `addBuildsetForChanges` creates. -/
structure SourceStamp where
  branch : String
  revision : String
  repository : String
  project : String
  codebase : String
  changeids : List Nat
deriving DecidableEq

/-! ### Scheduler state accessor (claim C8) -/

/-- The distinguishable "not found" failure of `getState` (surfaced as a
`KeyError` naming the state key). -/
inductive StateErr where
  | keyError : String → StateErr
deriving DecidableEq

/-- The persistent store, keyed by (objectId, class name, state key). -/
abbrev ObjectStateStore := List ((Nat × String × String) × Nat)

/-- Modelled from the spec: the store collaborator's
`getObjectState(objectId, className, key) -> value | absent` (§6). -/
def getObjectState (db : ObjectStateStore) (oid : Nat) (cls skey : String) :
    Option Nat :=
  alLookup db (oid, cls, skey)

/-- Modelled from the spec: the store collaborator's `setObjectState` (§6),
creating or overwriting as needed. -/
def setObjectState (db : ObjectStateStore) (oid : Nat) (cls skey : String)
    (v : Nat) : ObjectStateStore :=
  alUpdate db (oid, cls, skey) v

/-- Modelled from the spec: `BaseScheduler.getState` (§4.3;
`schedulers/base.py` is not under the provided sources): fetch scoped by
(objectId, class name, key); absent with a default returns the default,
absent without a default fails with a not-found error. -/
def getState (db : ObjectStateStore) (oid : Nat) (cls skey : String)
    (default : Option Nat) : Except StateErr Nat :=
  match getObjectState db oid cls skey with
  | some v => Except.ok v
  | none =>
      match default with
      | some d => Except.ok d
      | none => Except.error (StateErr.keyError skey)

/-- Modelled from the spec: `BaseScheduler.setState` (§4.3): write the value
scoped the same way, creating or overwriting. -/
def setState (db : ObjectStateStore) (oid : Nat) (cls skey : String) (v : Nat) :
    ObjectStateStore :=
  setObjectState db oid cls skey v

/-- Claim C8: `getState` after `setState` returns the written value;
`getState` of an absent key with a default returns the default; and
`getState` of an absent key with no default fails with the distinguishable
not-found error instead of returning a value. -/
theorem claim_C8 (db : ObjectStateStore) (oid : Nat) (cls skey : String)
    (v d : Nat) (dflt : Option Nat) :
    getState (setState db oid cls skey v) oid cls skey dflt = Except.ok v ∧
    (getObjectState db oid cls skey = none →
      getState db oid cls skey (some d) = Except.ok d) ∧
    (getObjectState db oid cls skey = none →
      getState db oid cls skey none = Except.error (StateErr.keyError skey)) := by
  refine ⟨?_, ?_, ?_⟩
  · unfold getState setState getObjectState setObjectState
    rw [alLookup_update_self]
  · intro h
    unfold getState
    rw [h]
  · intro h
    unfold getState
    rw [h]

/-- Witness for C8 on a concrete store. -/
theorem claim_C8_witness :
    getState (setState [] 19 "BaseScheduler" "y" 14) 19 "BaseScheduler" "y" none
      = Except.ok 14 ∧
    getState [] 19 "BaseScheduler" "missing" (some 3) = Except.ok 3 ∧
    getState [] 19 "BaseScheduler" "missing" none
      = Except.error (StateErr.keyError "missing") :=
  ⟨(claim_C8 [] 19 "BaseScheduler" "y" 14 3 none).1,
   (claim_C8 [] 19 "BaseScheduler" "missing" 14 3 none).2.1 rfl,
   (claim_C8 [] 19 "BaseScheduler" "missing" 14 3 none).2.2 rfl⟩

/-! ### Change filter pipeline (claim C6) -/

/-- What evaluating the importance predicate on a change does: return a
boolean, or raise. -/
inductive PredOutcome where
  | value : Bool → PredOutcome
  | raised : PredOutcome
deriving DecidableEq

/-- Observable effect of delivering one change: `callbackFlag = some b`
means the scheduler callback fired with importance `b`; `none` means the
change was ignored.  `errorsLogged` counts errors logged to the
process-wide sink while handling this change. -/
structure ConsumeResult where
  callbackFlag : Option Bool
  errorsLogged : Nat
deriving DecidableEq

/-- Modelled from the spec: step 2–4 of `startConsumingChanges`'s per-change
processing (§4.4; `schedulers/base.py` is not under the provided sources):
with no predicate every change is important; a predicate's boolean decides
importance; a raising predicate logs one error and ignores the change; an
unimportant change is ignored when `onlyImportant` is set. -/
def processImportance (pred : Option (Change → PredOutcome)) (onlyImportant : Bool)
    (c : Change) : ConsumeResult :=
  match pred with
  | none => { callbackFlag := some true, errorsLogged := 0 }
  | some p =>
      match p c with
      | PredOutcome.value true => { callbackFlag := some true, errorsLogged := 0 }
      | PredOutcome.value false =>
          if onlyImportant then { callbackFlag := none, errorsLogged := 0 }
          else { callbackFlag := some false, errorsLogged := 0 }
      | PredOutcome.raised => { callbackFlag := none, errorsLogged := 1 }

/-- Modelled from the spec: step 1 of the per-change processing — a
configured change filter that rejects the change ignores it before the
importance predicate runs. -/
def processChange (filt : Option (Change → Bool))
    (pred : Option (Change → PredOutcome)) (onlyImportant : Bool)
    (c : Change) : ConsumeResult :=
  match filt with
  | some fl =>
      if fl c then processImportance pred onlyImportant c
      else { callbackFlag := none, errorsLogged := 0 }
  | none => processImportance pred onlyImportant c

/-- Whether the configured filter (if any) lets the change through. -/
def filterPasses (filt : Option (Change → Bool)) (c : Change) : Bool :=
  match filt with
  | none => true
  | some fl => fl c

/-- Claim C6: the importance truth table — a rejected change is ignored
regardless of the predicate; no predicate means important; a predicate's
`true`/`false` decides importance, with `false` ignored under
`onlyImportant`; a raising predicate logs exactly one error and ignores the
change without propagating. -/
theorem claim_C6 (filt : Option (Change → Bool))
    (pred : Option (Change → PredOutcome)) (onlyImportant : Bool) (c : Change) :
    (∀ fl, filt = some fl → fl c = false →
      processChange filt pred onlyImportant c = ⟨none, 0⟩) ∧
    (filterPasses filt c = true → pred = none →
      processChange filt pred onlyImportant c = ⟨some true, 0⟩) ∧
    (∀ p, filterPasses filt c = true → pred = some p → p c = PredOutcome.value true →
      processChange filt pred onlyImportant c = ⟨some true, 0⟩) ∧
    (∀ p, filterPasses filt c = true → pred = some p → p c = PredOutcome.value false →
      onlyImportant = false →
      processChange filt pred onlyImportant c = ⟨some false, 0⟩) ∧
    (∀ p, filterPasses filt c = true → pred = some p → p c = PredOutcome.value false →
      onlyImportant = true →
      processChange filt pred onlyImportant c = ⟨none, 0⟩) ∧
    (∀ p, filterPasses filt c = true → pred = some p → p c = PredOutcome.raised →
      processChange filt pred onlyImportant c = ⟨none, 1⟩) := by
  have hpass : filterPasses filt c = true →
      processChange filt pred onlyImportant c = processImportance pred onlyImportant c := by
    intro h
    cases filt with
    | none => rfl
    | some fl =>
        simp only [filterPasses] at h
        simp only [processChange]
        rw [if_pos h]
  refine ⟨?_, ?_, ?_, ?_, ?_, ?_⟩
  · intro fl hf hrej
    subst hf
    simp [processChange, hrej]
  · intro hp hpred
    subst hpred
    rw [hpass hp]
    rfl
  · intro p hp hpred hval
    subst hpred
    rw [hpass hp]
    simp [processImportance, hval]
  · intro p hp hpred hval honly
    subst hpred honly
    rw [hpass hp]
    simp [processImportance, hval]
  · intro p hp hpred hval honly
    subst hpred honly
    rw [hpass hp]
    simp [processImportance, hval]
  · intro p hp hpred hval
    subst hpred
    rw [hpass hp]
    simp [processImportance, hval]

/-- Witness for C6: a raising predicate on a concrete change logs exactly
one error and suppresses delivery. -/
theorem claim_C6_witness :
    processChange (none : Option (Change → Bool))
        (some (fun _ => PredOutcome.raised)) false
        ⟨13, "trunk", "9283", "svn", "p", "cb"⟩
      = ⟨none, 1⟩ :=
  (claim_C6 none (some (fun _ => PredOutcome.raised)) false
      ⟨13, "trunk", "9283", "svn", "p", "cb"⟩).2.2.2.2.2
    (fun _ => PredOutcome.raised) rfl rfl rfl

/-! ### Property merge (claim C7) -/

theorem alLookup_append {α β : Type} [DecidableEq α] (l1 l2 : List (α × β)) (k : α) :
    alLookup (l1 ++ l2) k
      = match alLookup l1 k with
        | some v => some v
        | none => alLookup l2 k := by
  induction l1 with
  | nil => simp [alLookup]
  | cons p rest ih =>
      obtain ⟨k', v'⟩ := p
      by_cases h : k' = k
      · subst h; simp [alLookup]
      · simp [alLookup, h, ih]

theorem mem_of_alLookup_eq_some {α β : Type} [DecidableEq α]
    (l : List (α × β)) (k : α) (v : β) (h : alLookup l k = some v) : (k, v) ∈ l := by
  induction l with
  | nil => simp [alLookup] at h
  | cons p rest ih =>
      obtain ⟨k', v'⟩ := p
      by_cases hk : k' = k
      · subst hk
        simp only [alLookup, if_pos rfl] at h
        injection h with h2
        subst h2
        exact List.mem_cons_self _ _
      · simp only [alLookup, if_neg hk] at h
        exact List.mem_cons_of_mem _ (ih h)

theorem alLookup_eq_some_of_mem {α β : Type} [DecidableEq α]
    (l : List (α × β)) (k : α) (v : β) (hnd : (alKeys l).Nodup)
    (h : (k, v) ∈ l) : alLookup l k = some v := by
  induction l with
  | nil => simp at h
  | cons p rest ih =>
      obtain ⟨k', v'⟩ := p
      simp only [alKeys, List.map_cons, List.nodup_cons] at hnd
      rcases List.mem_cons.mp h with heq | hmem
      · injection heq with h1 h2
        subst h1; subst h2
        simp [alLookup]
      · have hk : ¬ (k' = k) := by
          rintro rfl
          exact hnd.1 (List.mem_map_of_mem Prod.fst hmem)
        simp only [alLookup, if_neg hk]
        exact ih hnd.2 hmem

theorem alLookup_reverse_nodup {α β : Type} [DecidableEq α]
    (l : List (α × β)) (k : α) (hnd : (alKeys l).Nodup) :
    alLookup l.reverse k = alLookup l k := by
  have hndr : (alKeys l.reverse).Nodup := by
    simp only [alKeys]
    rw [List.map_reverse]
    exact List.nodup_reverse.mpr (by simpa [alKeys] using hnd)
  cases h : alLookup l k with
  | some v =>
      exact alLookup_eq_some_of_mem _ _ _ hndr
        (by simpa using mem_of_alLookup_eq_some l k v h)
  | none =>
      rw [alLookup_eq_none_iff] at h ⊢
      intro hmem
      apply h
      simp only [alKeys] at hmem ⊢
      rw [List.map_reverse, List.mem_reverse] at hmem
      exact hmem

theorem alLookup_foldl_update {α β : Type} [DecidableEq α] :
    ∀ (l acc : List (α × β)) (k : α),
      alLookup (l.foldl (fun a e => alUpdate a e.1 e.2) acc) k
        = match alLookup l.reverse k with
          | some v => some v
          | none => alLookup acc k := by
  intro l
  induction l with
  | nil => intro acc k; simp [alLookup]
  | cons e rest ih =>
      intro acc k
      obtain ⟨k', v'⟩ := e
      rw [List.foldl_cons, ih, List.reverse_cons, alLookup_append]
      cases hr : alLookup rest.reverse k with
      | some v => rfl
      | none =>
          by_cases hk : k' = k
          · subst hk
            simp [alLookup, alLookup_update_self]
          · simp [alLookup, hk, alLookup_update_ne _ _ _ _ hk]

/-- Modelled from the spec: the property merge of the buildset factory (§3,
§4.5; `schedulers/base.py` is not under the provided sources): start from
the scheduler's base properties, overwrite with the scheduler-identity
property `scheduler → (name, "Scheduler")`, then apply the caller-supplied
properties in order, later entries overriding earlier ones. -/
def mergeProps (base : List (String × (String × String))) (schedName : String)
    (caller : List (String × (String × String))) :
    List (String × (String × String)) :=
  caller.foldl (fun a e => alUpdate a e.1 e.2)
    (alUpdate base "scheduler" (schedName, "Scheduler"))

/-- Claim C7: the merged property set resolves each name by: caller-supplied
value if any (the last such entry winning), else the injected
`scheduler → (name, "Scheduler")` property, else the scheduler's base
properties — so `scheduler` is always present, and a caller-supplied
`scheduler` property wins. -/
theorem claim_C7 (base caller : List (String × (String × String)))
    (schedName : String) :
    (∀ k, alLookup (mergeProps base schedName caller) k
      = match alLookup caller.reverse k with
        | some v => some v
        | none =>
            if k = "scheduler" then some (schedName, "Scheduler")
            else alLookup base k) ∧
    (alLookup caller "scheduler" = none →
      alLookup (mergeProps base schedName caller) "scheduler"
        = some (schedName, "Scheduler")) ∧
    ((alKeys caller).Nodup →
      ∀ v, alLookup caller "scheduler" = some v →
        alLookup (mergeProps base schedName caller) "scheduler" = some v) := by
  have hchar : ∀ k, alLookup (mergeProps base schedName caller) k
      = match alLookup caller.reverse k with
        | some v => some v
        | none =>
            if k = "scheduler" then some (schedName, "Scheduler")
            else alLookup base k := by
    intro k
    unfold mergeProps
    rw [alLookup_foldl_update]
    cases hr : alLookup caller.reverse k with
    | some v => rfl
    | none =>
        by_cases hk : k = "scheduler"
        · subst hk
          simp [alLookup_update_self]
        · simp [hk, alLookup_update_ne _ _ _ _ (fun h => hk h.symm)]
  refine ⟨hchar, ?_, ?_⟩
  · intro hnone
    rw [hchar "scheduler"]
    have hr : alLookup caller.reverse "scheduler" = none := by
      rw [alLookup_eq_none_iff] at hnone ⊢
      intro hmem
      apply hnone
      simp only [alKeys] at hmem ⊢
      rw [List.map_reverse, List.mem_reverse] at hmem
      exact hmem
    rw [hr]
    simp
  · intro hnd v hv
    rw [hchar "scheduler", alLookup_reverse_nodup caller "scheduler" hnd, hv]

/-- Witness for C7 mirroring the unit tests: base `a → (b, Scheduler)`,
caller `xxx → (yyy, TEST)`. -/
theorem claim_C7_witness :
    alLookup (mergeProps [("a", ("b", "Scheduler"))] "testy"
        [("xxx", ("yyy", "TEST"))]) "scheduler"
      = some ("testy", "Scheduler") ∧
    alLookup (mergeProps [("a", ("b", "Scheduler"))] "testy"
        [("scheduler", ("mine", "TEST"))]) "scheduler"
      = some ("mine", "TEST") :=
  ⟨(claim_C7 [("a", ("b", "Scheduler"))] [("xxx", ("yyy", "TEST"))] "testy").2.1
      (by decide),
   (claim_C7 [("a", ("b", "Scheduler"))] [("scheduler", ("mine", "TEST"))] "testy").2.2
      (by decide) ("mine", "TEST") (by decide)⟩

/-! ### SourceStamps from changes (claim C5) -/

/-- Modelled from the spec: the per-codebase aggregation of
`addBuildsetForChanges` (§4.5; `schedulers/base.py` is not under the
provided sources): the changes are processed in input order; per codebase
the change with the highest identifier so far is kept as the representative
and every change id is collected. -/
def addChange (tbl : List (String × (Change × List Nat))) (c : Change) :
    List (String × (Change × List Nat)) :=
  match alLookup tbl c.codebase with
  | none => tbl ++ [(c.codebase, (c, [c.changeid]))]
  | some (latest, ids) =>
      alUpdate tbl c.codebase
        (if latest.changeid < c.changeid then c else latest, ids ++ [c.changeid])

def changesTable (cs : List Change) : List (String × (Change × List Nat)) :=
  cs.foldl addChange []

/-- Modelled from the spec: the SourceStamps `addBuildsetForChanges`
creates — one per distinct codebase, fields from the representative change,
change ids the union of all contributors for that codebase. -/
def stampsForChanges (cs : List Change) : List SourceStamp :=
  (changesTable cs).map (fun e =>
    { branch := e.2.1.branch
      revision := e.2.1.revision
      repository := e.2.1.repository
      project := e.2.1.project
      codebase := e.1
      changeids := e.2.2 })

/-- Invariant of the aggregation fold over the processed prefix. -/
def TableOk (processed : List Change)
    (tbl : List (String × (Change × List Nat))) : Prop :=
  (alKeys tbl).Nodup ∧
  (∀ cb, (alLookup tbl cb).isSome = true ↔ ∃ c ∈ processed, c.codebase = cb) ∧
  (∀ cb latest ids, alLookup tbl cb = some (latest, ids) →
      latest ∈ processed ∧ latest.codebase = cb ∧
      (∀ c ∈ processed, c.codebase = cb → c.changeid ≤ latest.changeid) ∧
      ids = (processed.filter (fun c => c.codebase == cb)).map (fun c => c.changeid))

theorem alKeys_append {α β : Type} (l1 l2 : List (α × β)) :
    alKeys (l1 ++ l2) = alKeys l1 ++ alKeys l2 := by
  simp [alKeys]

theorem table_ok_nil : TableOk [] [] := by
  refine ⟨by simp [alKeys], ?_, ?_⟩
  · intro cb
    simp [alLookup]
  · intro cb latest ids h
    simp [alLookup] at h

theorem addChange_ok (processed : List Change)
    (tbl : List (String × (Change × List Nat))) (c : Change)
    (h : TableOk processed tbl) : TableOk (processed ++ [c]) (addChange tbl c) := by
  obtain ⟨hnd, hiff, hent⟩ := h
  unfold addChange
  cases hl : alLookup tbl c.codebase with
  | none =>
      have hnkey : c.codebase ∉ alKeys tbl := (alLookup_eq_none_iff _ _).mp hl
      refine ⟨?_, ?_, ?_⟩
      · rw [alKeys_append]
        exact List.Nodup.append hnd (by simp [alKeys])
          (by simpa [alKeys] using hnkey)
      · intro cb
        rw [alLookup_append]
        cases hlk : alLookup tbl cb with
        | some v =>
            simp only [Option.isSome_some, true_iff]
            obtain ⟨c', hc', hcb⟩ := (hiff cb).mp (by simp [hlk])
            exact ⟨c', List.mem_append_left _ hc', hcb⟩
        | none =>
            show (alLookup [(c.codebase, (c, [c.changeid]))] cb).isSome = true ↔ _
            by_cases hcb : c.codebase = cb
            · subst hcb
              have hone : alLookup [(c.codebase, (c, [c.changeid]))] c.codebase
                  = some (c, [c.changeid]) := by simp [alLookup]
              rw [hone]
              simp only [Option.isSome_some, true_iff]
              exact ⟨c, List.mem_append_right _ (by simp), rfl⟩
            · simp only [alLookup, if_neg hcb, Option.isSome_none,
                         Bool.false_eq_true, false_iff]
              rintro ⟨c', hc', hcb'⟩
              rcases List.mem_append.mp hc' with hin | hin
              · exact absurd ((hiff cb).mpr ⟨c', hin, hcb'⟩) (by simp [hlk])
              · rcases List.mem_singleton.mp hin with rfl
                exact hcb hcb'
      · intro cb latest ids hlk'
        rw [alLookup_append] at hlk'
        cases hlk : alLookup tbl cb with
        | some v =>
            rw [hlk] at hlk'
            dsimp only at hlk'
            injection hlk' with hv
            subst hv
            have hcbne : ¬ (c.codebase = cb) := by
              rintro rfl
              rw [hl] at hlk
              cases hlk
            obtain ⟨h1, h2, h3, h4⟩ := hent cb latest ids hlk
            refine ⟨List.mem_append_left _ h1, h2, ?_, ?_⟩
            · intro c' hc' hcb'
              rcases List.mem_append.mp hc' with hin | hin
              · exact h3 c' hin hcb'
              · rcases List.mem_singleton.mp hin with rfl
                exact absurd hcb' hcbne
            · rw [List.filter_append]
              have hbeq : (c.codebase == cb) = false := by
                simp only [beq_eq_false_iff_ne, ne_eq]
                exact hcbne
              have hfe : List.filter (fun c2 => c2.codebase == cb) [c] = [] := by
                simp [List.filter, hbeq]
              rw [hfe, List.append_nil]
              exact h4
        | none =>
            rw [hlk] at hlk'
            dsimp only at hlk'
            by_cases hcb : c.codebase = cb
            · rw [show alLookup [(c.codebase, (c, [c.changeid]))] cb
                  = some (c, [c.changeid]) by simp [alLookup, hcb]] at hlk'
              injection hlk' with hv
              have hlat : latest = c := (congrArg Prod.fst hv).symm
              have hids : ids = [c.changeid] := (congrArg Prod.snd hv).symm
              subst hlat
              subst hids
              have hnone : ¬ ∃ c' ∈ processed, c'.codebase = cb := by
                intro hex
                exact absurd ((hiff cb).mpr hex) (by simp [hlk])
              refine ⟨List.mem_append_right _ (by simp), hcb, ?_, ?_⟩
              · intro c' hc' hcb'
                rcases List.mem_append.mp hc' with hin | hin
                · exact absurd ⟨c', hin, hcb'⟩ hnone
                · rcases List.mem_singleton.mp hin with rfl
                  exact Nat.le_refl _
              · rw [List.filter_append]
                have hfp : List.filter (fun c2 => c2.codebase == cb) processed = [] := by
                  rw [List.filter_eq_nil_iff]
                  intro c' hc'
                  intro hb
                  exact hnone ⟨c', hc', by simpa using hb⟩
                rw [hfp, List.nil_append]
                simp [List.filter, hcb]
            · rw [show alLookup [(c.codebase, (c, [c.changeid]))] cb
                  = none by simp [alLookup, hcb]] at hlk'
              cases hlk'
  | some p =>
      obtain ⟨latest0, ids0⟩ := p
      have hkey : c.codebase ∈ alKeys tbl := by
        rw [← alLookup_isSome_iff]
        simp [hl]
      obtain ⟨hl1, hl2, hl3, hl4⟩ := hent c.codebase latest0 ids0 hl
      refine ⟨?_, ?_, ?_⟩
      · rw [alKeys_update_mem _ _ _ hkey]
        exact hnd
      · intro cb
        by_cases hcb : c.codebase = cb
        · subst hcb
          rw [alLookup_update_self]
          simp only [Option.isSome_some, true_iff]
          exact ⟨c, List.mem_append_right _ (by simp), rfl⟩
        · rw [alLookup_update_ne _ _ _ _ hcb]
          rw [hiff cb]
          constructor
          · rintro ⟨c', hc', hcb'⟩
            exact ⟨c', List.mem_append_left _ hc', hcb'⟩
          · rintro ⟨c', hc', hcb'⟩
            rcases List.mem_append.mp hc' with hin | hin
            · exact ⟨c', hin, hcb'⟩
            · rcases List.mem_singleton.mp hin with rfl
              exact absurd hcb' hcb
      · intro cb latest ids hlk'
        by_cases hcb : c.codebase = cb
        · subst hcb
          rw [alLookup_update_self] at hlk'
          injection hlk' with hv
          have hlat : latest = if latest0.changeid < c.changeid then c else latest0 :=
            (congrArg Prod.fst hv).symm
          have hids : ids = ids0 ++ [c.changeid] := (congrArg Prod.snd hv).symm
          subst hids
          constructor
          · rw [hlat]
            by_cases hlt : latest0.changeid < c.changeid
            · rw [if_pos hlt]
              exact List.mem_append_right _ (by simp)
            · rw [if_neg hlt]
              exact List.mem_append_left _ hl1
          constructor
          · rw [hlat]
            by_cases hlt : latest0.changeid < c.changeid
            · rw [if_pos hlt]
            · rw [if_neg hlt]
              exact hl2
          constructor
          · intro c' hc' hcb'
            rw [hlat]
            by_cases hlt : latest0.changeid < c.changeid
            · rw [if_pos hlt]
              rcases List.mem_append.mp hc' with hin | hin
              · exact Nat.le_trans (hl3 c' hin hcb') (Nat.le_of_lt hlt)
              · rcases List.mem_singleton.mp hin with rfl
                exact Nat.le_refl _
            · rw [if_neg hlt]
              rcases List.mem_append.mp hc' with hin | hin
              · exact hl3 c' hin hcb'
              · rcases List.mem_singleton.mp hin with rfl
                exact Nat.le_of_not_lt hlt
          · rw [List.filter_append, List.map_append, ← hl4]
            have hfc : List.filter (fun c2 => c2.codebase == c.codebase) [c] = [c] := by
              simp [List.filter]
            rw [hfc]
            rfl
        · rw [alLookup_update_ne _ _ _ _ hcb] at hlk'
          obtain ⟨h1, h2, h3, h4⟩ := hent cb latest ids hlk'
          refine ⟨List.mem_append_left _ h1, h2, ?_, ?_⟩
          · intro c' hc' hcb'
            rcases List.mem_append.mp hc' with hin | hin
            · exact h3 c' hin hcb'
            · rcases List.mem_singleton.mp hin with rfl
              exact absurd hcb' hcb
          · rw [List.filter_append]
            have hbeq : (c.codebase == cb) = false := by
              simp only [beq_eq_false_iff_ne, ne_eq]
              exact hcb
            have hfe : List.filter (fun c2 => c2.codebase == cb) [c] = [] := by
              simp [List.filter, hbeq]
            rw [hfe, List.append_nil]
            exact h4

theorem changesTable_ok :
    ∀ (cs processed : List Change) (tbl : List (String × (Change × List Nat))),
      TableOk processed tbl → TableOk (processed ++ cs) (cs.foldl addChange tbl) := by
  intro cs
  induction cs with
  | nil => intro processed tbl h; simpa using h
  | cons c rest ih =>
      intro processed tbl h
      rw [List.foldl_cons]
      have h2 := ih (processed ++ [c]) (addChange tbl c) (addChange_ok processed tbl c h)
      rw [List.append_assoc, List.singleton_append] at h2
      exact h2

/-- Claim C5: `addBuildsetForChanges` produces exactly one SourceStamp per
distinct codebase among the given changes — in any input order — whose
branch/revision/repository/project come from a change of that codebase with
maximal identifier, and whose change-id set is the union of all contributing
changes' identifiers for that codebase. -/
theorem claim_C5 (cs : List Change) :
    ((stampsForChanges cs).map (fun st => st.codebase)).Nodup ∧
    (∀ cb, (∃ st ∈ stampsForChanges cs, st.codebase = cb)
        ↔ ∃ c ∈ cs, c.codebase = cb) ∧
    (∀ st, st ∈ stampsForChanges cs →
      ∃ c ∈ cs, c.codebase = st.codebase ∧
        st.branch = c.branch ∧ st.revision = c.revision ∧
        st.repository = c.repository ∧ st.project = c.project ∧
        (∀ c' ∈ cs, c'.codebase = st.codebase → c'.changeid ≤ c.changeid) ∧
        (∀ i, i ∈ st.changeids
            ↔ ∃ c' ∈ cs, c'.codebase = st.codebase ∧ c'.changeid = i)) := by
  have hok : TableOk cs (changesTable cs) := by
    have h0 := changesTable_ok cs [] [] table_ok_nil
    simpa using h0
  obtain ⟨hnd, hiff, hent⟩ := hok
  have hmapkeys : (stampsForChanges cs).map (fun st => st.codebase)
      = alKeys (changesTable cs) := by
    unfold stampsForChanges
    rw [List.map_map]
    rfl
  refine ⟨?_, ?_, ?_⟩
  · rw [hmapkeys]
    exact hnd
  · intro cb
    constructor
    · rintro ⟨st, hst, hcb⟩
      obtain ⟨e, he, hfe⟩ := List.mem_map.mp hst
      have hkeymem : e.1 ∈ alKeys (changesTable cs) := List.mem_map_of_mem _ he
      have hsome : (alLookup (changesTable cs) e.1).isSome = true :=
        (alLookup_isSome_iff _ _).mpr hkeymem
      obtain ⟨c, hc, hcbc⟩ := (hiff e.1).mp hsome
      refine ⟨c, hc, ?_⟩
      have hstcb : st.codebase = e.1 := by rw [← hfe]
      rw [hcbc, ← hcb, hstcb]
    · rintro ⟨c, hc, hcbc⟩
      have hsome := (hiff cb).mpr ⟨c, hc, hcbc⟩
      cases hv : alLookup (changesTable cs) cb with
      | none => rw [hv] at hsome; simp at hsome
      | some v =>
          have hmem := mem_of_alLookup_eq_some _ _ _ hv
          exact ⟨_, List.mem_map_of_mem _ hmem, rfl⟩
  · intro st hst
    obtain ⟨e, he, hfe⟩ := List.mem_map.mp hst
    obtain ⟨cb, latest, ids⟩ := e
    have hlk : alLookup (changesTable cs) cb = some (latest, ids) :=
      alLookup_eq_some_of_mem _ _ _ hnd he
    obtain ⟨h1, h2, h3, h4⟩ := hent cb latest ids hlk
    have hstcb : st.codebase = cb := by rw [← hfe]
    refine ⟨latest, h1, ?_, ?_, ?_, ?_, ?_, ?_, ?_⟩
    · rw [h2, hstcb]
    · rw [← hfe]
    · rw [← hfe]
    · rw [← hfe]
    · rw [← hfe]
    · intro c' hc' hcb'
      apply h3 c' hc'
      rw [← hstcb]
      exact hcb'
    · intro i
      have hstids : st.changeids = ids := by rw [← hfe]
      rw [hstids, h4]
      constructor
      · intro hi
        obtain ⟨c', hc', hid⟩ := List.mem_map.mp hi
        have hcf := List.mem_filter.mp hc'
        refine ⟨c', hcf.1, ?_, hid⟩
        have hcbeq : c'.codebase = cb := by simpa using hcf.2
        rw [hcbeq, hstcb]
      · rintro ⟨c', hc', hcb', hid⟩
        refine List.mem_map.mpr ⟨c', List.mem_filter.mpr ⟨hc', ?_⟩, hid⟩
        have hcbeq : c'.codebase = cb := by rw [hcb', hstcb]
        simpa using hcbeq

/-- Witness for C5 mirroring the unit-test scenario: three changes on the
same codebase, given out of order, yield one stamp with the highest-id
change's fields and all three ids. -/
theorem claim_C5_witness :
    stampsForChanges
        [⟨14, "devel", "9284", "svn", "making-tea", "cbsvn"⟩,
         ⟨15, "trunk", "9285", "svn", "world-domination", "cbsvn"⟩,
         ⟨13, "trunk", "9283", "svn", "knitting", "cbsvn"⟩]
      = [⟨"trunk", "9285", "svn", "world-domination", "cbsvn", [14, 15, 13]⟩] ∧
    (∃ c ∈ ([⟨14, "devel", "9284", "svn", "making-tea", "cbsvn"⟩,
             ⟨15, "trunk", "9285", "svn", "world-domination", "cbsvn"⟩,
             ⟨13, "trunk", "9283", "svn", "knitting", "cbsvn"⟩] : List Change),
       c.codebase = "cbsvn") :=
  ⟨by decide,
   ((claim_C5
      [⟨14, "devel", "9284", "svn", "making-tea", "cbsvn"⟩,
       ⟨15, "trunk", "9285", "svn", "world-domination", "cbsvn"⟩,
       ⟨13, "trunk", "9283", "svn", "knitting", "cbsvn"⟩]).2.1 "cbsvn").mp
    ⟨⟨"trunk", "9285", "svn", "world-domination", "cbsvn", [14, 15, 13]⟩,
     by decide, rfl⟩⟩
